import Mathlib

/-!
Verification of the file_ref library: a shallow embedding of the path
normalization code (src/file_ref.rs) and the directory scanner
(src/file_scanner.rs), with theorems settling the specification claims.

Paths are modelled as lists of characters (the contents of the Rust String
backing a FilePath / FileRef).  Fallible or panicking code is modelled with
Option / explicit result types: a None result of the path constructor means
the Rust code panics (an out-of-bounds / underflow index access).
-/

namespace FileRefLib

/-- The canonical separator character (SEPARATOR = "/"). -/
def sepC : Char := '/'

/-- The rejected separator character (INVALID_SEPARATOR = "\\"). -/
def badSepC : Char := '\\'

/-- The two-character node ".." used by the '..'-collapsing loop. -/
def dd : List Char := ['.', '.']

/-- The one-character node "." stripped by the '.'-removal step. -/
def dotN : List Char := ['.']

/-- Step 1 of FilePath::new: path.replace(INVALID_SEPARATOR, SEPARATOR).
The pattern is a single character, so the replacement is a character map. -/
def repBS (s : List Char) : List Char :=
  s.map fun c => if c = badSepC then sepC else c

/-- Rust str::contains(DOUBLE_SEPARATOR): does the string contain "//"? -/
def hasDS : List Char → Bool
  | [] => false
  | [_] => false
  | a :: b :: r => (a = sepC && b = sepC) || hasDS (b :: r)

/-- One pass of path.replace(DOUBLE_SEPARATOR, SEPARATOR): non-overlapping
left-to-right replacement of "//" by "/". -/
def repDS : List Char → List Char
  | [] => []
  | [c] => [c]
  | a :: b :: r => if a = sepC ∧ b = sepC then sepC :: repDS r else a :: repDS (b :: r)

/-- The while-loop of FilePath::new that repeats the "//" replacement while the
string still contains "//".  Each pass strictly shrinks the string, so running
the loop body s.length times provably reaches the loop's fixed point; the fuel
argument is a termination device only. -/
def dsIter : Nat → List Char → List Char
  | 0, s => s
  | f + 1, s => if hasDS s then dsIter f (repDS s) else s

/-- Rust path.split(SEPARATOR) (and generically str::split on one char):
splitting an empty string yields one empty piece. -/
def splitOn (sep : Char) : List Char → List (List Char)
  | [] => [[]]
  | c :: r =>
    if c = sep then [] :: splitOn sep r
    else
      match splitOn sep r with
      | [] => [[c]]
      | n :: ns => (c :: n) :: ns

/-- Split on the canonical separator. -/
def splitSep (s : List Char) : List (List Char) := splitOn sepC s

/-- Rust nodes.join(SEPARATOR). -/
def joinSep : List (List Char) → List Char
  | [] => []
  | [n] => n
  | n :: m :: ns => n ++ sepC :: joinSep (m :: ns)

/-- Result of one pass of the '..'-collapsing while-loop, scanning from a given
index: the pass either reaches the end of the node list with nothing left to
collapse (clean), evaluates nodes[index - 1] with index = 0 — a usize
underflow, i.e. a panic — or removes a ("x", "..") pair and reports the
shortened list (after which the Rust loop restarts at index 0). -/
inductive SweepRes where
  | clean : SweepRes
  | panic : SweepRes
  | removed : List (List Char) → SweepRes
deriving DecidableEq

/-- One pass of the '..'-collapsing loop of FilePath::new.  The zipper state
(acc, rest) represents the node list acc.reverse ++ rest with the loop index
at acc.length.  At each step the Rust code tests
nodes[index] == ".." && nodes[index - 1] != "..": when nodes[index] is ".."
and index is 0, the nodes[index - 1] access underflows (panic); when the
preceding node is not "..", both nodes are removed and the loop restarts. -/
def ddSweep : List (List Char) → List (List Char) → SweepRes
  | _, [] => .clean
  | acc, x :: r =>
    if x = dd then
      match acc with
      | [] => .panic
      | p :: acc' => if p = dd then ddSweep (x :: acc) r else .removed (acc'.reverse ++ r)
    else ddSweep (x :: acc) r

/-- The restart portion of the '..'-collapsing loop: after each removal the
Rust code sets index = 0 and rescans the modified list.  Each removal shortens
the list by two, so ns.length passes suffice; fuel is a termination device. -/
def ddIter : Nat → List (List Char) → Option (List (List Char))
  | 0, ns => some ns
  | f + 1, ns =>
    match ddSweep [] ns with
    | .clean => some ns
    | .panic => none
    | .removed ns' => ddIter f ns'

/-- The '..'-collapsing stage of FilePath::new: the loop runs only when there
are at least two nodes; the first pass starts at index 1, every pass after a
removal starts at index 0.  None models the nodes[index - 1] underflow
panic. -/
def fpCollapse (nodes : List (List Char)) : Option (List (List Char)) :=
  if 2 ≤ nodes.length then
    match nodes with
    | [] => some []
    | x :: t =>
      match ddSweep [x] t with
      | .clean => some (x :: t)
      | .panic => none
      | .removed ns' => ddIter ns'.length ns'
  else some nodes

/-- The '.'-stripping stage of FilePath::new: remove "." nodes when a "."
node is present and the path does not consist solely of "." nodes. -/
def fpDots (ns2 : List (List Char)) : List (List Char) :=
  if dotN ∈ ns2 ∧ ¬ (∀ n ∈ ns2, n = dotN) then ns2.filter (· ≠ dotN) else ns2

/-- FilePath::new (src/file_ref.rs): replace backslashes, collapse doubled
separators while any remain, split into nodes, collapse ".." pairs, strip "."
nodes, and join.  A None result models a panic of the Rust code (the
nodes[index - 1] underflow in the collapsing loop). -/
def fpNew (s : List Char) : Option (List Char) :=
  match fpCollapse (splitSep (dsIter (repBS s).length (repBS s))) with
  | none => none
  | some ns2 => some (joinSep (fpDots ns2))

/-! ### FileRef helper operations (src/file_ref.rs) -/

/-- Boolean list-prefix test (substring machinery for Rust str::contains and
str::starts_with). -/
def preB : List Char → List Char → Bool
  | [], _ => true
  | _ :: _, [] => false
  | a :: s, b :: t => a = b && preB s t

/-- Rust str::contains(pat): pat occurs as a contiguous substring of s. -/
def subB (pat : List Char) : List Char → Bool
  | [] => preB pat []
  | c :: r => preB pat (c :: r) || subB pat r

/-- Rust str::trim_end_matches("/") at the string level: remove every trailing
separator character. -/
def dropTrailingSep (p : List Char) : List Char :=
  (p.reverse.dropWhile (· = sepC)).reverse

/-- The while-loop of FileRef::path_nodes that pops trailing empty nodes. -/
def dropTrailingE : List (List Char) → List (List Char)
  | [] => []
  | x :: t =>
    match dropTrailingE t with
    | [] => if x = [] then [] else [x]
    | r => x :: r

/-- FileRef::path_nodes: split on the separator, then drop trailing empties. -/
def pathNodes (p : List Char) : List (List Char) :=
  dropTrailingE (splitSep p)

/-- FileRef::last_node: the final piece of path.split("/") (the split of any
string is nonempty, matching .last().unwrap_or_default()). -/
def lastNode (p : List Char) : List Char :=
  (splitSep p).getLastD []

/-- FileRef::extension: Some(text after the final '.') when the file name
contains a '.', None otherwise. -/
def extOf (p : List Char) : Option (List Char) :=
  let n := lastNode p
  if '.' ∈ n then some ((splitOn '.' n).getLastD []) else none

/-- FileRef::is_absolute_path: the path contains the DISK_SEPARATOR ":". -/
def hasColon (p : List Char) : Bool := ':' ∈ p

/-! ### The abstract filesystem

The scanner observes the operating system only through std::fs::read_dir,
std::fs::metadata / Path::exists, and std::env::current_dir.  An abstract
filesystem packages those three observations; quantifying over it covers
every filesystem state. -/

/-- Abstract filesystem state.  readDir p is the outcome of
std::fs::read_dir(p) (None = Err, Some es = the entries' display strings,
exactly as the iterator hands them over); meta p merges Path::exists with
fs::metadata (None = the path does not exist or metadata fails, Some b = the
metadata is retrievable and b is its is_dir flag); cwdRaw is the display
string of std::env::current_dir. -/
structure FS where
  readDir : List Char → Option (List (List Char))
  meta : List Char → Option Bool
  cwdRaw : List Char

/-- FileRef::exists: the OS reports the path present and metadata is
retrievable. -/
def existsF (fs : FS) (p : List Char) : Bool :=
  (fs.meta p).isSome

/-- FileRef::is_dir: trust metadata when the path exists; otherwise guess from
the extension (no extension, or an empty extension, means directory). -/
def isDirF (fs : FS) (p : List Char) : Bool :=
  match fs.meta p with
  | some b => b
  | none =>
    match extOf p with
    | some e => e = ([] : List Char)
    | none => true

/-- FileRef::absolute: an absolute path is returned unchanged; a relative path
becomes working_dir() + "/" + path, where each + re-runs FileRef::new (the Add
impl) and working_dir() itself runs FileRef::new on the OS string.  None
models a panic inside one of those normalizations. -/
def absoluteP (fs : FS) (p : List Char) : Option (List Char) :=
  if hasColon p then some p
  else do
    let w ← fpNew fs.cwdRaw
    let w2 ← fpNew (w ++ [sepC])
    fpNew (w2 ++ p)

/-- The PartialEq impl of FileRef: raw paths equal, or absolute forms equal
(|| short-circuits, so the absolute forms are only computed when the raw paths
differ).  None models a panic inside absolute(). -/
def feq (fs : FS) (a b : List Char) : Option Bool :=
  if a = b then some true
  else
    match absoluteP fs a, absoluteP fs b with
    | some x, some y => some (x = y)
    | _, _ => none

/-- entries.iter().position(|entry| entry == skipping_entry): the predicate is
evaluated left to right until the first match, so a panic in the equality
(inner None) only surfaces if no earlier entry matched. -/
def posEq (fs : FS) : List (List Char) → List Char → Option (Option Nat)
  | [], _ => some none
  | e :: r, sk =>
    match feq fs e sk with
    | none => none
    | some true => some (some 0)
    | some false =>
      match posEq fs r sk with
      | none => none
      | some none => some none
      | some (some i) => some (some (i + 1))

/-- The start_entry_index expression of find_next_file_at:
last_parsed_file.map(position.map(+1).unwrap_or_default()).unwrap_or_default().
None models a panic inside the FileRef equality. -/
def startIndex (fs : FS) (entries : List (List Char)) :
    Option (List Char) → Option Nat
  | none => some 0
  | some sk =>
    match posEq fs entries sk with
    | none => none
    | some none => some 0
    | some (some i) => some (i + 1)

/-- entries.sort_by(|a, b| b.is_dir().cmp(&a.is_dir())): a stable sort on a
Bool key is exactly "directories first, original order preserved within each
class". -/
def sortDirsFirst (fs : FS) (es : List (List Char)) : List (List Char) :=
  es.filter (fun e => isDirF fs e) ++ es.filter (fun e => ¬ isDirF fs e)

/-- The entry-collection loop of find_next_file_at: each raw OS path is pushed
through FileRef::new.  None models a panic of one of those normalizations. -/
def mapFpNew : List (List Char) → Option (List (List Char))
  | [] => some []
  | e :: r => do
    let e' ← fpNew e
    let r' ← mapFpNew r
    pure (e' :: r')

/-- Outcome of FileRef::parent_dir: a parent (Ok), the NoParent error (Err), or
a panic / divergence (the relative-path retry can recurse forever for
degenerate working directories; a stack overflow is modelled as panic). -/
inductive PRes where
  | ok : List Char → PRes
  | err : PRes
  | panic : PRes
deriving DecidableEq

/-- FileRef::parent_dir.  If the last node is "..", return self + "/.." (the
Add impl re-runs FileRef::new).  Otherwise with at most one node: a relative
path retries on its absolute form (the recursion consumes the depth budget; at
most two nested calls can occur for any working directory on which the
recursion terminates at all), an absolute one errs.  Otherwise the raw prefix
of the path covering all nodes but the last is re-normalized. -/
def parentDirCore (fs : FS) : Nat → List Char → PRes
  | 0, _ => .panic
  | d + 1, p =>
    let ns := pathNodes p
    if ns.getLastD [] = dd then
      match fpNew (p ++ sepC :: dd) with
      | some q => .ok q
      | none => .panic
    else if ns.length ≤ 1 then
      if hasColon p then .err
      else
        match absoluteP fs p with
        | none => .panic
        | some a => parentDirCore fs d a
    else
      match fpNew (p.take (joinSep ns.dropLast).length) with
      | some q => .ok q
      | none => .panic

/-- FileRef::parent_dir with the depth budget that suffices for every
terminating execution. -/
def parentDirF (fs : FS) (p : List Char) : PRes :=
  parentDirCore fs 2 p

/-! ### The scanner (src/file_scanner.rs) -/

/-- The configuration part of FileScanner (include_files, include_dirs,
results_filter, recurse_filter). -/
structure Config where
  includeFiles : Bool
  includeDirs : Bool
  resultsFilter : List Char → Bool
  recurseFilter : List Char → Bool

/-- FileScannerCursor: the directory being scanned and the last file parsed
from it. -/
structure Cursor where
  dir : List Char
  last : Option (List Char)

/-- FileScanner: configuration, the trimmed source_dir, and the cursor. -/
structure Scanner where
  cfg : Config
  sourceDir : List Char
  cursor : Cursor

/-- Outcome of one call of find_next_file_at: Ok(entry), the
"Could not find file" Err, a Rust panic, or exhaustion of the model's
recursion fuel (the Rust recursion is unbounded; every claim quantifies over
the fuel or exhibits a sufficient one). -/
inductive ScanRes where
  | found : List Char → ScanRes
  | notFound : ScanRes
  | panic : ScanRes
  | fuelOut : ScanRes
deriving DecidableEq

/-- The for-entry-in-entries loop of find_next_file_at.  next e is the nested
call self.find_next_file_at(&entry, &None) used for recursion into
directories; the second component of every result is the list of directories
passed to read_dir (the instrumentation that claims about listing behaviour
refer to). -/
def scanEntries (cfg : Config) (fs : FS)
    (next : List Char → ScanRes × List (List Char)) :
    List (List Char) → ScanRes × List (List Char)
  | [] => (.notFound, [])
  | e :: rest =>
    let isD := isDirF fs e
    if ((isD && cfg.includeDirs) || (!isD && cfg.includeFiles)) && cfg.resultsFilter e then
      (.found e, [])
    else if isD && cfg.recurseFilter e then
      match next e with
      | (.notFound, tr) =>
        let res := scanEntries cfg fs next rest
        (res.1, tr ++ res.2)
      | (r, tr) => (r, tr)
    else scanEntries cfg fs next rest

/-- FileScanner::find_next_file_at.  Collect the children of dir (a failed
read_dir contributes no entries), normalize each with FileRef::new, stable-sort
directories first, skip past the last parsed file, scan the remaining entries
(yield / recurse), and finally ascend into the parent when its path contains
source_dir as a substring.  The trace component records every directory passed
to read_dir, in call order. -/
def findNextFileAt (cfg : Config) (sd : List Char) (fs : FS) :
    Nat → List Char → Option (List Char) → ScanRes × List (List Char)
  | 0, _, _ => (.fuelOut, [])
  | fuel + 1, dir, last =>
    match mapFpNew ((fs.readDir dir).getD []) with
    | none => (.panic, [dir])
    | some entries0 =>
      match startIndex fs (sortDirsFirst fs entries0) last with
      | none => (.panic, [dir])
      | some start =>
        match scanEntries cfg fs
            (fun e => findNextFileAt cfg sd fs fuel e none)
            ((sortDirsFirst fs entries0).drop start) with
        | (.notFound, tr) =>
          match parentDirF fs dir with
          | .panic => (.panic, dir :: tr)
          | .err => (.notFound, dir :: tr)
          | .ok p =>
            if subB sd p then
              match findNextFileAt cfg sd fs fuel p (some dir) with
              | (r2, tr2) => (r2, dir :: (tr ++ tr2))
            else (.notFound, dir :: tr)
        | (r, tr) => (r, dir :: tr)

/-- FileScanner::find_next_file_at_cursor: look for the next file at the
cursor; on success descend the cursor into the found directory when the
recurse filter lets it, otherwise park the cursor at the entry's parent with
the entry as last parsed file (the ? on parent_dir turns its Err into an Err
of the whole call, with the cursor untouched). -/
def findNextFileAtCursor (fs : FS) (fuel : Nat) (s : Scanner) :
    ScanRes × Scanner × List (List Char) :=
  match findNextFileAt s.cfg s.sourceDir fs fuel s.cursor.dir s.cursor.last with
  | (.found e, tr) =>
    if isDirF fs e && s.cfg.recurseFilter e then
      (.found e, { s with cursor := ⟨e, none⟩ }, tr)
    else
      match parentDirF fs e with
      | .ok p => (.found e, { s with cursor := ⟨p, some e⟩ }, tr)
      | .err => (.notFound, s, tr)
      | .panic => (.panic, s, tr)
  | (r, tr) => (r, s, tr)

/-- FileScanner::new: source_dir is the input with trailing separators trimmed
(trim_end_matches goes through FileRef::new again, hence the Option); the
cursor starts at the unmodified input; files and dirs are excluded by default,
the results filter accepts everything and the recurse filter nothing.  In the
Iterator impl, a found result is Some(entry) and notFound is None. -/
def scannerNew (source : List Char) : Option Scanner :=
  (fpNew (dropTrailingSep source)).map fun sd =>
    { cfg := ⟨false, false, fun _ => true, fun _ => false⟩
      sourceDir := sd
      cursor := ⟨source, none⟩ }

/-- FileScanner::include_files. -/
def includeFilesS (s : Scanner) : Scanner :=
  { s with cfg := { s.cfg with includeFiles := true } }

/-- FileScanner::include_dirs. -/
def includeDirsS (s : Scanner) : Scanner :=
  { s with cfg := { s.cfg with includeDirs := true } }

/-- FileScanner::with_filter. -/
def withFilterS (f : List Char → Bool) (s : Scanner) : Scanner :=
  { s with cfg := { s.cfg with resultsFilter := f } }

/-- FileScanner::with_recurse_filter. -/
def withRecurseFilterS (f : List Char → Bool) (s : Scanner) : Scanner :=
  { s with cfg := { s.cfg with recurseFilter := f } }

/-- FileScanner::recurse = with_recurse_filter(|_| true). -/
def recurseS (s : Scanner) : Scanner :=
  withRecurseFilterS (fun _ => true) s

/-! ### The include_self configuration -/

/-- Modelled from the spec: the include_self configuration of the scanner.
FileScanner::include_self is absent from src/src/file_scanner.rs; only the
tests in src/src/file_scanner_u.rs reference it.  Per the spec, the scanner
additionally records whether the root entry is a candidate result and whether
it has been emitted. -/
structure ScannerSelf where
  base : Scanner
  includeSelf : Bool
  selfEmitted : Bool

/-- Modelled from the spec: FileScanner::include_self (chainable setter). -/
def includeSelfS (s : ScannerSelf) : ScannerSelf :=
  { s with includeSelf := true }

/-- Modelled from the spec: pulling the next entry with include_self.  Step 1
of the spec's algorithm: if include_self and not yet emitted and the root
exists and passes result_filter, yield the root (the normalized trimmed root)
and mark self emitted — checked before any directory listing; otherwise
proceed with the ordinary directory walk. -/
def nextSelf (fs : FS) (fuel : Nat) (s : ScannerSelf) :
    ScanRes × ScannerSelf × List (List Char) :=
  if s.includeSelf && !s.selfEmitted && existsF fs s.base.sourceDir
      && s.base.cfg.resultsFilter s.base.sourceDir then
    (.found s.base.sourceDir, { s with selfEmitted := true }, [])
  else
    let r := findNextFileAtCursor fs fuel s.base
    (r.1, { s with base := r.2.1 }, r.2.2)

/-! ### Structural predicates used by the verification -/

/-- All elements of a node list except the last one are nonempty. -/
def ABL : List (List Char) → Prop
  | [] => True
  | [_] => True
  | x :: y :: t => x ≠ [] ∧ ABL (y :: t)

/-- All elements of a node list except the first and the last are nonempty
(the shape of any node list obtained by splitting a string without doubled
separators, preserved by the normalization pipeline). -/
def Good : List (List Char) → Prop
  | [] => True
  | _ :: t => ABL t

/-- Every ".." node in the list is directly preceded by a ".." node, where the
first parameter is the preceding node.  This is what one pass of the
'..'-collapsing loop checks. -/
def chainOK : List Char → List (List Char) → Prop
  | _, [] => True
  | p, x :: r => (x = dd → p = dd) ∧ chainOK x r

/-- The node list is a fixed point of the '..'-collapsing loop as the loop
actually scans it (from index 1). -/
def Fix1 : List (List Char) → Prop
  | [] => True
  | x :: t => ddSweep [x] t = .clean

/-- The node list is a fixed point of the '.'-stripping step: either no "."
node at all, or only "." nodes. -/
def dotCond (ns : List (List Char)) : Prop :=
  dotN ∉ ns ∨ ∀ n ∈ ns, n = dotN

/-- Normal form of a path string: what FilePath::new produces, and exactly the
strings FilePath::new maps to themselves. -/
def NF (s : List Char) : Prop :=
  badSepC ∉ s ∧ hasDS s = false ∧ Fix1 (splitSep s) ∧ dotCond (splitSep s)

/-- v lies in the subtree of sd: after trimming trailing separators it is sd
itself or a strict path extension of sd. -/
def Under (sd v : List Char) : Prop :=
  dropTrailingSep v = sd ∨ preB (sd ++ [sepC]) (dropTrailingSep v) = true

/-- A file name as the operating system can hand it to the scanner through
read_dir: nonempty, without separators, and never the special entries "." or
"..", which read_dir does not report. -/
def goodName (n : List Char) : Prop :=
  n ≠ [] ∧ sepC ∉ n ∧ badSepC ∉ n ∧ n ≠ dotN ∧ n ≠ dd

/-- Well-formedness of an abstract filesystem: a successful read_dir on p
reports entries whose display strings are p (without its trailing separators)
plus a separator plus a well-formed name, which is how std::fs::read_dir joins
directory and file name. -/
structure FS.WF (fs : FS) : Prop where
  children : ∀ p es, fs.readDir p = some es →
    ∀ e ∈ es, ∃ n, goodName n ∧ e = dropTrailingSep p ++ sepC :: n

/-- The last-parsed-file slot of the cursor holds either nothing or a
normalized absolute path. -/
def LastOK : Option (List Char) → Prop
  | none => True
  | some l => NF l ∧ hasColon l = true

/-- e is the display string of a direct child of directory v, as read_dir
produces it. -/
def ChildOf (v e : List Char) : Prop :=
  ∃ n, goodName n ∧ e = dropTrailingSep v ++ sepC :: n

/-- Every entry the scan yields is a direct child of some directory
satisfying G. -/
def YieldsFrom (G : List Char → Prop) (e : List Char) : Prop :=
  ∃ v, G v ∧ ChildOf v e

/-- The guard of the yield site of find_next_file_at: the entry's
classification is enabled and it passes the results filter. -/
def yieldOK (cfg : Config) (fs : FS) (e : List Char) : Prop :=
  (((isDirF fs e && cfg.includeDirs) || (!(isDirF fs e) && cfg.includeFiles))
    && cfg.resultsFilter e) = true

/-- The filesystem with every directory-listing failure replaced by a
successful empty listing ("swallow the error, treat the directory as
empty"). -/
def FS.swallow (fs : FS) : FS :=
  ⟨fun p => some ((fs.readDir p).getD []), fs.meta, fs.cwdRaw⟩

/-- Directories reachable from the scan root by descending only through
directory children that the recurse filter admits (the root itself
included). -/
inductive DescReach (cfg : Config) (fs : FS) (sd : List Char) : List Char → Prop
  | root : DescReach cfg fs sd sd
  | child (v n : List Char) : DescReach cfg fs sd v → goodName n →
      isDirF fs (dropTrailingSep v ++ sepC :: n) = true →
      cfg.recurseFilter (dropTrailingSep v ++ sepC :: n) = true →
      DescReach cfg fs sd (dropTrailingSep v ++ sepC :: n)

/-- Invariant of the scanner state between two next() calls: the stored
source dir is the root, the cursor sits on a reachable directory, and the
last-parsed slot is empty or a normalized absolute path. -/
def SInv (fs : FS) (sd : List Char) (s : Scanner) : Prop :=
  s.sourceDir = sd ∧ DescReach s.cfg fs sd s.cursor.dir ∧ LastOK s.cursor.last

/-- n successive pulls of the include_self iterator, collecting the
results in order. -/
def runSelf (fs : FS) (fuel : Nat) : Nat → ScannerSelf → List ScanRes
  | 0, _ => []
  | n + 1, s =>
    (nextSelf fs fuel s).1 :: runSelf fs fuel n (nextSelf fs fuel s).2.1

/-! ### Concrete filesystems and scanners used as witnesses and
counterexamples -/

/-- The path C:/r. -/
def pRoot : List Char := ['C', ':', '/', 'r']

/-- The path C:/r/f1.txt. -/
def pF1 : List Char := ['C', ':', '/', 'r', '/', 'f', '1', '.', 't', 'x', 't']

/-- The path C:/r/f2.txt. -/
def pF2 : List Char := ['C', ':', '/', 'r', '/', 'f', '2', '.', 't', 'x', 't']

/-- The path C:/w. -/
def pW : List Char := ['C', ':', '/', 'w']

/-- A filesystem whose directory C:/r holds the two files f1.txt and
f2.txt; the working directory is C:/w. -/
def fs1 : FS where
  readDir p := if p = pRoot then some [pF1, pF2] else none
  meta p :=
    if p = pRoot then some true
    else if p = pF1 then some false
    else if p = pF2 then some false
    else none
  cwdRaw := pW

/-- include_files with the default filters. -/
def cfg1 : Config := ⟨true, false, fun _ => true, fun _ => false⟩

/-- A scanner over fs1 rooted at C:/r. -/
def sc1 : Scanner := ⟨cfg1, pRoot, ⟨pRoot, none⟩⟩

/-- The relative path a. -/
def pA : List Char := ['a']

/-- The path C:/w/a. -/
def pWA : List Char := ['C', ':', '/', 'w', '/', 'a']

/-- The relative path r. -/
def pR5 : List Char := ['r']

/-- The path C:/dr. -/
def pDr : List Char := ['C', ':', '/', 'd', 'r']

/-- The path C:/dr/w. -/
def pDrw : List Char := ['C', ':', '/', 'd', 'r', '/', 'w']

/-- The path C:/dr/w/g.txt. -/
def pG5 : List Char :=
  ['C', ':', '/', 'd', 'r', '/', 'w', '/', 'g', '.', 't', 'x', 't']

/-- A filesystem where the relative root r is an empty directory, the
working directory is C:/dr/w, and C:/dr/w holds the file g.txt. -/
def fs5 : FS where
  readDir p :=
    if p = pR5 then some []
    else if p = pDrw then some [pG5]
    else none
  meta p :=
    if p = pR5 then some true
    else if p = pDr then some true
    else if p = pDrw then some true
    else if p = pG5 then some false
    else none
  cwdRaw := pDrw

/-- include_files with a recurse filter that rejects C:/dr. -/
def cfg5 : Config := ⟨true, false, fun _ => true, fun d => d ≠ pDr⟩

/-- A scanner over fs5 rooted at the relative path r. -/
def sc5 : Scanner := ⟨cfg5, pR5, ⟨pR5, none⟩⟩

/-- The path C:/r/sub. -/
def pSub : List Char := ['C', ':', '/', 'r', '/', 's', 'u', 'b']

/-- The path C:/r/sub/x.txt. -/
def pX5 : List Char :=
  ['C', ':', '/', 'r', '/', 's', 'u', 'b', '/', 'x', '.', 't', 'x', 't']

/-- A filesystem whose directory C:/r holds the directory sub, which holds
the file x.txt; the working directory is C:/w. -/
def fs5a : FS where
  readDir p :=
    if p = pRoot then some [pSub]
    else if p = pSub then some [pX5]
    else none
  meta p :=
    if p = pRoot then some true
    else if p = pSub then some true
    else if p = pX5 then some false
    else none
  cwdRaw := pW

/-- include_files and include_dirs, with a results filter that rejects
C:/r/sub and a recurse filter that accepts everything. -/
def cfg5a : Config := ⟨true, true, fun e => e ≠ pSub, fun _ => true⟩

/-- The relative path f.txt. -/
def pF6 : List Char := ['f', '.', 't', 'x', 't']

/-- The path C:/f.txtd. -/
def pD6 : List Char := ['C', ':', '/', 'f', '.', 't', 'x', 't', 'd']

/-- The path C:/f.txtd/g.txt. -/
def pG6 : List Char :=
  ['C', ':', '/', 'f', '.', 't', 'x', 't', 'd', '/', 'g', '.', 't', 'x', 't']

/-- A filesystem where f.txt is a file, the working directory C:/f.txtd
holds the file g.txt, and the root name f.txt is a substring of the
working directory's name. -/
def fs6 : FS where
  readDir p := if p = pD6 then some [pG6] else none
  meta p :=
    if p = pF6 then some false
    else if p = pD6 then some true
    else if p = pG6 then some false
    else none
  cwdRaw := pD6

/-- include_files, include_dirs and recurse. -/
def cfg6 : Config := ⟨true, true, fun _ => true, fun _ => true⟩

/-- A scanner over fs6 rooted at the relative file path f.txt. -/
def sc6 : Scanner := ⟨cfg6, pF6, ⟨pF6, none⟩⟩

/-- The path C:/x. -/
def pX6 : List Char := ['C', ':', '/', 'x']

/-- The path C:/x/f.txt. -/
def pXF : List Char := ['C', ':', '/', 'x', '/', 'f', '.', 't', 'x', 't']

/-- A filesystem where C:/x holds the single file f.txt; read_dir fails on
the file itself. -/
def fs6b : FS where
  readDir p := if p = pX6 then some [pXF] else none
  meta p :=
    if p = pXF then some false
    else if p = pX6 then some true
    else none
  cwdRaw := pX6

/-- A scanner over fs6b rooted at the absolute file path C:/x/f.txt. -/
def sc6b : Scanner := ⟨cfg6, pXF, ⟨pXF, none⟩⟩

/-- The include_self scanner over fs1 rooted at C:/r. -/
def sc8 : ScannerSelf := ⟨sc1, true, false⟩

/-- A scanner over fs5a rooted at C:/r with the cfg5a configuration. -/
def sc5a : Scanner := ⟨cfg5a, pRoot, ⟨pRoot, none⟩⟩

/-- The scanner FileScanner::new produces for the input C:/r. -/
def s10 : Scanner :=
  ⟨⟨false, false, fun _ => true, fun _ => false⟩, pRoot, ⟨pRoot, none⟩⟩

/-! ## Lemmas about separator replacement and the doubled-separator loop -/

theorem sep_ne_badSep : sepC ≠ badSepC := by decide

theorem repBS_not_mem (s : List Char) : badSepC ∉ repBS s := by
  intro h
  rw [repBS, List.mem_map] at h
  obtain ⟨a, _, ha⟩ := h
  by_cases hab : a = badSepC
  · rw [if_pos hab] at ha
    exact sep_ne_badSep ha
  · rw [if_neg hab] at ha
    exact hab ha

theorem repBS_id (s : List Char) (h : badSepC ∉ s) : repBS s = s := by
  have hc : ∀ a ∈ s, (if a = badSepC then sepC else a) = a := by
    intro a ha
    have hne : a ≠ badSepC := by
      rintro rfl
      exact h ha
    exact if_neg hne
  rw [repBS, List.map_congr_left hc]
  simp

theorem repDS_length_le : ∀ s : List Char, (repDS s).length ≤ s.length
  | [] => le_refl _
  | [_] => le_refl _
  | a :: b :: r => by
    rw [repDS]
    split
    · have := repDS_length_le r
      simp only [List.length_cons]
      omega
    · have := repDS_length_le (b :: r)
      simp only [List.length_cons] at *
      omega

theorem repDS_length_lt : ∀ s : List Char, hasDS s = true → (repDS s).length < s.length
  | [], h => by simp [hasDS] at h
  | [_], h => by simp [hasDS] at h
  | a :: b :: r, h => by
    rw [repDS]
    split
    · have := repDS_length_le r
      simp only [List.length_cons]
      omega
    · rename_i hcond
      rw [hasDS] at h
      simp only [Bool.or_eq_true] at h
      have hb : hasDS (b :: r) = true := by
        rcases h with h' | h'
        · exact absurd (by simpa using h') hcond
        · exact h'
      have := repDS_length_lt (b :: r) hb
      simp only [List.length_cons] at *
      omega

theorem dsIter_noDS : ∀ (f : Nat) (s : List Char), s.length ≤ f →
    hasDS (dsIter f s) = false
  | 0, s, h => by
    have : s = [] := List.length_eq_zero.mp (Nat.le_zero.mp h)
    subst this
    rfl
  | f + 1, s, h => by
    rw [dsIter]
    split
    · rename_i hds
      exact dsIter_noDS f (repDS s) (by have := repDS_length_lt s hds; omega)
    · rename_i hds
      exact Bool.not_eq_true _ |>.mp hds

theorem dsIter_id : ∀ (f : Nat) (s : List Char), hasDS s = false → dsIter f s = s
  | 0, _, _ => rfl
  | f + 1, s, h => by
    rw [dsIter, if_neg]
    simp [h]

theorem hasDS_of_mem : ∀ s : List Char, hasDS s = true → sepC ∈ s
  | a :: b :: r, h => by
    rw [hasDS] at h
    simp only [Bool.or_eq_true] at h
    rcases h with h' | h'
    · simp only [Bool.and_eq_true, decide_eq_true_eq] at h'
      exact h'.1 ▸ List.mem_cons_self a _
    · exact List.mem_cons_of_mem a (hasDS_of_mem (b :: r) h')

theorem noDS_of_not_mem (s : List Char) (h : sepC ∉ s) : hasDS s = false := by
  cases hds : hasDS s
  · rfl
  · exact absurd (hasDS_of_mem s hds) h

theorem hasDS_append_noSep : ∀ a s : List Char, sepC ∉ a →
    hasDS (a ++ s) = hasDS s
  | [], s, _ => rfl
  | [c], s, h => by
    have hc : c ≠ sepC := fun e => h (by simp [e])
    cases s with
    | nil => simp [hasDS]
    | cons b r =>
      simp only [List.cons_append, List.nil_append, hasDS]
      have : (c = sepC && b = sepC) = false := by
        simp [hc]
      rw [this, Bool.false_or]
  | a :: c :: t, s, h => by
    have ha : a ≠ sepC := fun e => h (by simp [e])
    have ht : sepC ∉ c :: t := fun e => h (List.mem_cons_of_mem a e)
    simp only [List.cons_append, hasDS, List.append_eq]
    rw [show c :: (t ++ s) = (c :: t) ++ s from rfl,
      hasDS_append_noSep (c :: t) s ht]
    have : (decide (a = sepC) && decide (c = sepC)) = false := by simp [ha]
    rw [this, Bool.false_or]

/-! ## Lemmas about splitting and joining -/

theorem splitOn_ne_nil (sep : Char) : ∀ s, splitOn sep s ≠ []
  | [] => by simp [splitOn]
  | c :: r => by
    rw [splitOn]
    split
    · simp
    · match hsp : splitOn sep r with
      | [] => simp
      | n :: ns => simp

theorem mem_splitOn_mem (sep : Char) :
    ∀ s n, n ∈ splitOn sep s → ∀ c ∈ n, c ∈ s
  | [], n, hn, c, hc => by
    simp only [splitOn, List.mem_singleton] at hn
    subst hn
    simp at hc
  | a :: r, n, hn, c, hc => by
    rw [splitOn] at hn
    split at hn
    · rcases List.mem_cons.mp hn with h | h
      · subst h
        simp at hc
      · exact List.mem_cons_of_mem a (mem_splitOn_mem sep r n h c hc)
    · match hsp : splitOn sep r with
      | [] => exact absurd hsp (splitOn_ne_nil sep r)
      | m :: ms =>
        rw [hsp] at hn
        have hm : m ∈ splitOn sep r := by rw [hsp]; exact List.mem_cons_self m ms
        rcases List.mem_cons.mp hn with h | h
        · subst h
          rcases List.mem_cons.mp hc with h' | h'
          · exact h' ▸ List.mem_cons_self a r
          · exact List.mem_cons_of_mem a (mem_splitOn_mem sep r m hm c h')
        · have hnr : n ∈ splitOn sep r := by rw [hsp]; exact List.mem_cons_of_mem m h
          exact List.mem_cons_of_mem a (mem_splitOn_mem sep r n hnr c hc)

theorem mem_splitOn_not_sep (sep : Char) :
    ∀ s n, n ∈ splitOn sep s → sep ∉ n
  | [], n, hn => by
    simp only [splitOn, List.mem_singleton] at hn
    subst hn
    simp
  | a :: r, n, hn => by
    rw [splitOn] at hn
    split at hn
    · rcases List.mem_cons.mp hn with h | h
      · subst h
        simp
      · exact mem_splitOn_not_sep sep r n h
    · rename_i hne
      match hsp : splitOn sep r with
      | [] => exact absurd hsp (splitOn_ne_nil sep r)
      | m :: ms =>
        rw [hsp] at hn
        have hm : m ∈ splitOn sep r := by rw [hsp]; exact List.mem_cons_self m ms
        rcases List.mem_cons.mp hn with h | h
        · subst h
          intro hmem
          rcases List.mem_cons.mp hmem with h' | h'
          · exact hne h'.symm
          · exact mem_splitOn_not_sep sep r m hm h'
        · have hnr : n ∈ splitOn sep r := by rw [hsp]; exact List.mem_cons_of_mem m h
          exact mem_splitOn_not_sep sep r n hnr

theorem joinSep_splitSep : ∀ s, joinSep (splitSep s) = s
  | [] => rfl
  | c :: r => by
    rw [splitSep, splitOn]
    split
    · rename_i hc
      match hsp : splitOn sepC r with
      | [] => exact absurd hsp (splitOn_ne_nil sepC r)
      | m :: ms =>
        have ih : joinSep (m :: ms) = r := by
          rw [← hsp]
          exact joinSep_splitSep r
        rw [joinSep, ih, hc]
        simp
    · match hsp : splitOn sepC r with
      | [] => exact absurd hsp (splitOn_ne_nil sepC r)
      | m :: ms =>
        have ih : joinSep (m :: ms) = r := by
          rw [← hsp]
          exact joinSep_splitSep r
        match ms with
        | [] =>
          rw [joinSep]
          rw [joinSep] at ih
          rw [ih]
        | m2 :: ms' =>
          rw [joinSep]
          rw [joinSep] at ih
          rw [List.cons_append, ih]

theorem splitOn_of_not_mem (sep : Char) : ∀ n, sep ∉ n → splitOn sep n = [n]
  | [], _ => rfl
  | c :: r, h => by
    have hc : c ≠ sep := fun e => h (by simp [e])
    have hr : sep ∉ r := fun e => h (List.mem_cons_of_mem c e)
    rw [splitOn, if_neg hc, splitOn_of_not_mem sep r hr]

theorem splitOn_append (sep : Char) :
    ∀ n s, sep ∉ n → splitOn sep (n ++ sep :: s) = n :: splitOn sep s
  | [], s, _ => by
    simp only [List.nil_append]
    rw [splitOn, if_pos rfl]
  | c :: r, s, h => by
    have hc : c ≠ sep := fun e => h (by simp [e])
    have hr : sep ∉ r := fun e => h (List.mem_cons_of_mem c e)
    rw [List.cons_append, splitOn, if_neg hc,
      splitOn_append sep r s hr]

theorem splitSep_joinSep : ∀ ns, ns ≠ [] → (∀ n ∈ ns, sepC ∉ n) →
    splitSep (joinSep ns) = ns
  | [], h, _ => absurd rfl h
  | [n], _, hmem => by
    rw [joinSep, splitSep, splitOn_of_not_mem sepC n (hmem n (by simp))]
  | n :: m :: t, _, hmem => by
    have ih : splitSep (joinSep (m :: t)) = m :: t :=
      splitSep_joinSep (m :: t) (by simp) fun x hx => hmem x (List.mem_cons_of_mem n hx)
    rw [splitSep] at ih
    rw [joinSep, splitSep, splitOn_append sepC n (joinSep (m :: t)) (hmem n (by simp)), ih]

/-! ## Lemmas about the shape predicates ABL and Good -/

theorem ABL_cons_iff (a : List Char) (l : List (List Char)) :
    ABL (a :: l) ↔ l = [] ∨ (a ≠ [] ∧ ABL l) := by
  cases l with
  | nil => simp [ABL]
  | cons y t => simp [ABL]

theorem ABL_of_cons {a : List Char} {l : List (List Char)} (h : ABL (a :: l)) :
    ABL l := by
  rcases (ABL_cons_iff a l).mp h with h' | ⟨_, h'⟩
  · subst h'
    trivial
  · exact h'

theorem ABL_filter (f : List Char → Bool) : ∀ l, ABL l → ABL (l.filter f)
  | [], _ => by simp [ABL]
  | [x], _ => by
    cases hf : f x <;> simp [List.filter_cons, hf, ABL]
  | x :: y :: t, h => by
    obtain ⟨hx, ht⟩ : x ≠ [] ∧ ABL (y :: t) := h
    have ih := ABL_filter f (y :: t) ht
    rw [List.filter_cons]
    cases hf : f x
    · simpa using ih
    · simp only [if_pos]
      rcases hq : (y :: t).filter f with _ | ⟨m, ms⟩
      · trivial
      · rw [hq] at ih
        exact ⟨hx, ih⟩

theorem ABL_append_cons_cons (y z : List Char) (C : List (List Char)) :
    ∀ A, ABL (A ++ y :: z :: C) → ABL (A ++ C)
  | [], h => by
    simp only [List.nil_append] at *
    exact ABL_of_cons (ABL_of_cons h)
  | a :: A', h => by
    rw [List.cons_append] at h
    have ih := ABL_append_cons_cons y z C A' (ABL_of_cons h)
    rw [List.cons_append]
    rcases hq : A' ++ C with _ | ⟨m, ms⟩
    · trivial
    · have hne : A' ++ y :: z :: C ≠ [] := by simp
      rcases (ABL_cons_iff _ _).mp h with h'' | ⟨ha, _⟩
      · exact absurd h'' hne
      · rw [hq] at ih
        exact ⟨ha, ih⟩

theorem ABL_append_left : ∀ A B : List (List Char), ABL (A ++ B) → ABL A
  | [], _, _ => trivial
  | [_], _, _ => trivial
  | x :: y :: t, B, h => by
    rw [List.cons_append] at h
    have h' : x ≠ [] ∧ ABL (y :: (t ++ B)) := by
      rw [List.cons_append] at h
      exact h
    exact ⟨h'.1, ABL_append_left (y :: t) B (by rw [List.cons_append]; exact h'.2)⟩

theorem Good_of_ABL : ∀ l, ABL l → Good l
  | [], _ => trivial
  | _ :: _, h => ABL_of_cons h

theorem Good_filter (f : List Char → Bool) : ∀ l, Good l → Good (l.filter f)
  | [], _ => trivial
  | x :: t, h => by
    rw [List.filter_cons]
    cases hf : f x
    · simp only [Bool.false_eq_true, if_false]
      exact Good_of_ABL _ (ABL_filter f t h)
    · simp only [if_pos]
      show ABL (t.filter f)
      exact ABL_filter f t h

theorem Good_removal (B : List (List Char)) (y z : List Char)
    (C : List (List Char)) (h : Good (B ++ y :: z :: C)) : Good (B ++ C) := by
  cases B with
  | nil =>
    simp only [List.nil_append] at *
    exact Good_of_ABL C (ABL_of_cons (show ABL (z :: C) from h))
  | cons b B' =>
    rw [List.cons_append] at *
    exact ABL_append_cons_cons y z C B' h

theorem Good_dropLast_aux : ∀ l : List (List Char), ABL l → ABL l.dropLast
  | [], _ => trivial
  | [x], _ => by simp [ABL]
  | x :: y :: t, h => by
    obtain ⟨hx, ht⟩ : x ≠ [] ∧ ABL (y :: t) := h
    have ih := Good_dropLast_aux (y :: t) ht
    show ABL (x :: (y :: t).dropLast)
    rcases hq : (y :: t).dropLast with _ | ⟨m, ms⟩
    · trivial
    · rw [hq] at ih
      exact ⟨hx, ih⟩

theorem Good_dropLast : ∀ l : List (List Char), Good l → Good l.dropLast
  | [], _ => trivial
  | [x], _ => trivial
  | x :: y :: t, h => by
    show Good (x :: (y :: t).dropLast)
    exact Good_dropLast_aux (y :: t) h

/-! ## Lemmas about the '..'-collapsing sweep -/

theorem ddSweep_cons_clean :
    ∀ (rest : List (List Char)) (p : List Char) (acc : List (List Char)),
      ddSweep (p :: acc) rest = .clean ↔ chainOK p rest
  | [], p, acc => by simp [ddSweep, chainOK]
  | x :: r, p, acc => by
    rw [ddSweep]
    by_cases hx : x = dd
    · rw [if_pos hx]
      show (if p = dd then ddSweep (x :: p :: acc) r
        else .removed (acc.reverse ++ r)) = .clean ↔ chainOK p (x :: r)
      by_cases hp : p = dd
      · rw [if_pos hp, ddSweep_cons_clean r x (p :: acc), chainOK]
        exact ⟨fun h => ⟨fun _ => hp, h⟩, fun h => h.2⟩
      · rw [if_neg hp, chainOK]
        constructor
        · intro h
          exact SweepRes.noConfusion h
        · rintro ⟨himp, _⟩
          exact absurd (himp hx) hp
    · rw [if_neg hx, ddSweep_cons_clean r x (p :: acc), chainOK]
      exact ⟨fun h => ⟨fun e => absurd e hx, h⟩, fun h => h.2⟩

theorem Fix1_of_sweep_nil {ns : List (List Char)} (h : ddSweep [] ns = .clean) :
    Fix1 ns := by
  cases ns with
  | nil => trivial
  | cons x r =>
    rw [ddSweep] at h
    by_cases hx : x = dd
    · rw [if_pos hx] at h
      exact SweepRes.noConfusion h
    · rw [if_neg hx] at h
      exact h

theorem chainOK_of_ne : ∀ (rest : List (List Char)) (p : List Char), p ≠ dd →
    (chainOK p rest ↔ dd ∉ rest)
  | [], p, _ => by simp [chainOK]
  | x :: r, p, hp => by
    rw [chainOK]
    constructor
    · rintro ⟨himp, hch⟩
      have hx : x ≠ dd := fun e => hp (himp e)
      intro hmem
      rcases List.mem_cons.mp hmem with e | e
      · exact hx e.symm
      · exact ((chainOK_of_ne r x hx).mp hch) e
    · intro hmem
      have hx : x ≠ dd := fun e => hmem (by rw [e]; exact List.mem_cons_self _ _)
      exact ⟨fun e => absurd e hx,
        (chainOK_of_ne r x hx).mpr fun e => hmem (List.mem_cons_of_mem _ e)⟩

theorem chainOK_dd_decomp : ∀ rest, chainOK dd rest →
    ∃ k t, rest = List.replicate k dd ++ t ∧ dd ∉ t
  | [], _ => ⟨0, [], rfl, by simp⟩
  | x :: r, h => by
    obtain ⟨_, hch⟩ := h
    by_cases hx : x = dd
    · subst hx
      obtain ⟨k, t, he, hn⟩ := chainOK_dd_decomp r hch
      exact ⟨k + 1, t, by rw [List.replicate_succ, List.cons_append, he], hn⟩
    · have hnr : dd ∉ r := (chainOK_of_ne r x hx).mp hch
      refine ⟨0, x :: r, rfl, ?_⟩
      intro hmem
      rcases List.mem_cons.mp hmem with e | e
      · exact hx e.symm
      · exact hnr e

theorem chainOK_of_decomp : ∀ (k : Nat) (t : List (List Char)), dd ∉ t →
    chainOK dd (List.replicate k dd ++ t)
  | 0, t, hn => by
    simp only [List.replicate, List.nil_append]
    cases t with
    | nil => trivial
    | cons x r =>
      have hx : x ≠ dd := fun e => hn (e ▸ List.mem_cons_self _ _)
      exact ⟨fun e => absurd e hx,
        (chainOK_of_ne r x hx).mpr fun e => hn (List.mem_cons_of_mem _ e)⟩
  | k + 1, t, hn => by
    rw [List.replicate_succ, List.cons_append]
    exact ⟨fun _ => rfl, chainOK_of_decomp k t hn⟩

theorem Fix1_iff_decomp (ns : List (List Char)) :
    Fix1 ns ↔ ∃ k t, ns = List.replicate k dd ++ t ∧ dd ∉ t := by
  cases ns with
  | nil =>
    constructor
    · exact fun _ => ⟨0, [], rfl, by simp⟩
    · exact fun _ => trivial
  | cons x t =>
    rw [show Fix1 (x :: t) = (ddSweep [x] t = .clean) from rfl,
      ddSweep_cons_clean t x []]
    constructor
    · intro h
      by_cases hx : x = dd
      · subst hx
        obtain ⟨k, t', he, hn⟩ := chainOK_dd_decomp t h
        exact ⟨k + 1, t', by rw [List.replicate_succ, List.cons_append, he], hn⟩
      · refine ⟨0, x :: t, rfl, ?_⟩
        have hnt : dd ∉ t := (chainOK_of_ne t x hx).mp h
        intro hm
        rcases List.mem_cons.mp hm with e | e
        · exact hx e.symm
        · exact hnt e
    · rintro ⟨k, t', he, hn⟩
      cases k with
      | zero =>
        simp only [List.replicate, List.nil_append] at he
        have hx : x ≠ dd := by
          rintro rfl
          exact hn (he ▸ List.mem_cons_self _ _)
        rw [← he] at hn
        exact (chainOK_of_ne t x hx).mpr fun e => hn (List.mem_cons_of_mem _ e)
      | succ k' =>
        rw [List.replicate_succ, List.cons_append] at he
        obtain ⟨h1, h2⟩ := List.cons.inj he
        subst h1
        rw [h2]
        exact chainOK_of_decomp k' t' hn

theorem ddSweep_cons (acc : List (List Char)) (x : List Char)
    (r : List (List Char)) :
    ddSweep acc (x :: r) =
      if x = dd then
        match acc with
        | [] => .panic
        | p :: acc' =>
          if p = dd then ddSweep (x :: acc) r else .removed (acc'.reverse ++ r)
      else ddSweep (x :: acc) r := by
  cases acc <;> rfl

theorem ddSweep_removed_decomp :
    ∀ (rest acc : List (List Char)) (out : List (List Char)),
      ddSweep acc rest = .removed out →
      ∃ B y C, acc.reverse ++ rest = B ++ y :: dd :: C ∧ out = B ++ C
  | [], _, _, h => SweepRes.noConfusion h
  | x :: r, acc, out, h => by
    by_cases hx : x = dd
    · cases acc with
      | nil =>
        rw [ddSweep, if_pos hx] at h
        exact SweepRes.noConfusion h
      | cons p acc' =>
        rw [ddSweep, if_pos hx] at h
        have h' : (if p = dd then ddSweep (x :: p :: acc') r
            else .removed (acc'.reverse ++ r)) = SweepRes.removed out := h
        by_cases hp : p = dd
        · rw [if_pos hp] at h'
          obtain ⟨B, y, C, he, ho⟩ := ddSweep_removed_decomp r (x :: p :: acc') out h'
          refine ⟨B, y, C, ?_, ho⟩
          rw [← he]
          simp [List.reverse_cons, List.append_assoc]
        · rw [if_neg hp] at h'
          have ho : out = acc'.reverse ++ r := (SweepRes.removed.inj h').symm
          refine ⟨acc'.reverse, p, r, ?_, ho⟩
          rw [hx]
          simp [List.reverse_cons, List.append_assoc]
    · rw [ddSweep_cons, if_neg hx] at h
      obtain ⟨B, y, C, he, ho⟩ := ddSweep_removed_decomp r (x :: acc) out h
      refine ⟨B, y, C, ?_, ho⟩
      rw [← he]
      simp [List.reverse_cons, List.append_assoc]

theorem ddSweep_removed_decomp_nil {ns out : List (List Char)}
    (h : ddSweep [] ns = .removed out) :
    ∃ B y C, ns = B ++ y :: dd :: C ∧ out = B ++ C := by
  have := ddSweep_removed_decomp ns [] out h
  simpa using this

theorem ddIter_closed (P : List (List Char) → Prop)
    (hP : ∀ B y C, P (B ++ y :: dd :: C) → P (B ++ C)) :
    ∀ (f : Nat) (ns ms : List (List Char)), P ns → ddIter f ns = some ms → P ms
  | 0, ns, ms, hns, h => by
    rw [ddIter] at h
    exact Option.some.inj h ▸ hns
  | f + 1, ns, ms, hns, h => by
    rw [ddIter] at h
    cases hsw : ddSweep [] ns with
    | clean =>
      rw [hsw] at h
      exact Option.some.inj h ▸ hns
    | panic =>
      rw [hsw] at h
      exact Option.noConfusion h
    | removed ns' =>
      rw [hsw] at h
      obtain ⟨B, y, C, he, ho⟩ := ddSweep_removed_decomp_nil hsw
      exact ddIter_closed P hP f ns' ms (ho ▸ hP B y C (he ▸ hns)) h

theorem ddIter_fix : ∀ (f : Nat) (ns ms : List (List Char)),
    ns.length ≤ 2 * f → ddIter f ns = some ms → Fix1 ms
  | 0, ns, ms, hl, h => by
    rw [ddIter] at h
    have hnil : ns = [] := List.length_eq_zero.mp (Nat.le_zero.mp (by omega))
    rw [← Option.some.inj h, hnil]
    trivial
  | f + 1, ns, ms, hl, h => by
    rw [ddIter] at h
    cases hsw : ddSweep [] ns with
    | clean =>
      rw [hsw] at h
      exact Option.some.inj h ▸ Fix1_of_sweep_nil hsw
    | panic =>
      rw [hsw] at h
      exact Option.noConfusion h
    | removed ns' =>
      rw [hsw] at h
      obtain ⟨B, y, C, he, ho⟩ := ddSweep_removed_decomp_nil hsw
      have hlen : ns'.length + 2 = ns.length := by
        rw [he, ho]
        simp
        omega
      exact ddIter_fix f ns' ms (by omega) h

/-! ## Lemmas about joining and the absence of doubled separators -/

theorem mem_joinSep : ∀ (ns : List (List Char)) (c : Char), c ∈ joinSep ns →
    c = sepC ∨ ∃ n ∈ ns, c ∈ n
  | [], c, h => by simp [joinSep] at h
  | [n], c, h => by
    rw [joinSep] at h
    exact Or.inr ⟨n, by simp, h⟩
  | n :: m :: t, c, h => by
    rw [joinSep] at h
    rcases List.mem_append.mp h with h' | h'
    · exact Or.inr ⟨n, by simp, h'⟩
    · rcases List.mem_cons.mp h' with h'' | h''
      · exact Or.inl h''
      · rcases mem_joinSep (m :: t) c h'' with h3 | ⟨x, hx, hc⟩
        · exact Or.inl h3
        · exact Or.inr ⟨x, List.mem_cons_of_mem n hx, hc⟩

theorem noDS_joinSep : ∀ ns : List (List Char),
    (∀ n ∈ ns, sepC ∉ n) → Good ns → hasDS (joinSep ns) = false
  | [], _, _ => rfl
  | [n], hmem, _ => by
    rw [joinSep]
    exact noDS_of_not_mem n (hmem n (by simp))
  | n :: m :: t, hmem, hg => by
    rw [joinSep]
    rw [hasDS_append_noSep n (sepC :: joinSep (m :: t)) (hmem n (by simp))]
    have hmem' : ∀ x ∈ m :: t, sepC ∉ x := fun x hx => hmem x (List.mem_cons_of_mem n hx)
    have hg' : Good (m :: t) := Good_of_ABL _ (show ABL (m :: t) from hg)
    have ih := noDS_joinSep (m :: t) hmem' hg'
    cases t with
    | nil =>
      rw [joinSep] at ih ⊢
      cases m with
      | nil => rfl
      | cons c cs =>
        rw [hasDS]
        have hc : c ≠ sepC := fun e => hmem' (c :: cs) (by simp) (by rw [e]; simp)
        simp [hc, ih]
    | cons m2 t' =>
      have hmne : m ≠ [] := (show ABL (m :: m2 :: t') from hg).1
      cases m with
      | nil => exact absurd rfl hmne
      | cons c cs =>
        rw [joinSep] at ih
        simp only [List.cons_append] at ih
        rw [joinSep]
        simp only [List.cons_append]
        rw [hasDS]
        have hc : c ≠ sepC := fun e => hmem' (c :: cs) (by simp) (by rw [e]; simp)
        simp [hc, ih]

/-! ## Remaining auxiliary lemmas for the normalization pipeline -/

theorem mem_repDS : ∀ (s : List Char) (c : Char), c ∈ repDS s → c ∈ s
  | [], _, h => by simp [repDS] at h
  | [a], c, h => by
    rw [repDS] at h
    exact h
  | a :: b :: r, c, h => by
    rw [repDS] at h
    split at h
    · rename_i hcond
      rcases List.mem_cons.mp h with e | e
      · rw [e, hcond.1]
        simp
      · exact List.mem_cons_of_mem a (List.mem_cons_of_mem b (mem_repDS r c e))
    · rcases List.mem_cons.mp h with e | e
      · rw [e]
        simp
      · exact List.mem_cons_of_mem a (mem_repDS (b :: r) c e)

theorem mem_dsIter : ∀ (f : Nat) (s : List Char) (c : Char), c ∈ dsIter f s → c ∈ s
  | 0, _, _, h => h
  | f + 1, s, c, h => by
    rw [dsIter] at h
    split at h
    · exact mem_repDS s c (mem_dsIter f (repDS s) c h)
    · exact h

theorem hasDS_cons_false {a : Char} {r : List Char} (h : hasDS (a :: r) = false) :
    hasDS r = false := by
  cases r with
  | nil => rfl
  | cons b r' =>
    rw [hasDS] at h
    exact (Bool.or_eq_false_iff.mp h).2

theorem splitOn_cons_ne (sep b : Char) (r' : List Char) (hb : b ≠ sep) :
    ∃ h' t', splitOn sep (b :: r') = (b :: h') :: t' := by
  rw [splitOn, if_neg hb]
  match hsp : splitOn sep r' with
  | [] => exact absurd hsp (splitOn_ne_nil sep r')
  | m :: ms => exact ⟨m, ms, rfl⟩

theorem Good_splitSep : ∀ s : List Char, hasDS s = false → Good (splitSep s)
  | [], _ => trivial
  | c :: r, h => by
    have hr : hasDS r = false := hasDS_cons_false h
    have ih := Good_splitSep r hr
    rw [splitSep, splitOn]
    by_cases hc : c = sepC
    · rw [if_pos hc]
      show ABL (splitOn sepC r)
      cases r with
      | nil => trivial
      | cons b r' =>
        have hb : b ≠ sepC := by
          intro e
          rw [hasDS, e, hc] at h
          simp at h
        obtain ⟨h', t', he⟩ := splitOn_cons_ne sepC b r' hb
        rw [he]
        rw [splitSep, he] at ih
        rcases t' with _ | ⟨m, ms⟩
        · trivial
        · exact ⟨by simp, ih⟩
    · rw [if_neg hc]
      match hsp : splitOn sepC r with
      | [] => exact absurd hsp (splitOn_ne_nil sepC r)
      | m :: ms =>
        rw [splitSep, hsp] at ih
        exact ih

theorem Fix1_short : ∀ ns : List (List Char), ns.length ≤ 1 → Fix1 ns
  | [], _ => trivial
  | [x], _ => rfl
  | _ :: _ :: _, h => by simp at h

theorem filter_replicate_dd (k : Nat) :
    (List.replicate k dd).filter (· ≠ dotN) = List.replicate k dd := by
  induction k with
  | zero => rfl
  | succ k ih =>
    rw [List.replicate_succ, List.filter_cons, ih]
    have : dd ≠ dotN := by decide
    simp [this]

theorem Fix1_filter_dot {ns : List (List Char)} (h : Fix1 ns) :
    Fix1 (ns.filter (· ≠ dotN)) := by
  obtain ⟨k, t, he, hn⟩ := (Fix1_iff_decomp ns).mp h
  rw [(Fix1_iff_decomp _)]
  refine ⟨k, t.filter (· ≠ dotN), ?_, ?_⟩
  · rw [he, List.filter_append, filter_replicate_dd]
  · intro hm
    exact hn (List.mem_of_mem_filter hm)

theorem Fix1_append_single {ns : List (List Char)} (h : Fix1 ns) {n : List Char}
    (hn : n ≠ dd) : Fix1 (ns ++ [n]) := by
  obtain ⟨k, t, he, hnt⟩ := (Fix1_iff_decomp ns).mp h
  rw [(Fix1_iff_decomp _)]
  refine ⟨k, t ++ [n], by rw [he, List.append_assoc], ?_⟩
  intro hm
  rcases List.mem_append.mp hm with e | e
  · exact hnt e
  · exact hn (List.mem_singleton.mp e).symm

theorem Fix1_dropLast {ns : List (List Char)} (h : Fix1 ns) : Fix1 ns.dropLast := by
  obtain ⟨k, t, he, hnt⟩ := (Fix1_iff_decomp ns).mp h
  rw [(Fix1_iff_decomp _)]
  cases t with
  | nil =>
    refine ⟨k - 1, [], ?_, by simp⟩
    rw [he]
    simp only [List.append_nil]
    rw [List.dropLast_replicate]
  | cons m ms =>
    refine ⟨k, (m :: ms).dropLast, ?_, ?_⟩
    · rw [he, List.dropLast_append_of_ne_nil _ (by simp)]
    · intro hm
      exact hnt (List.dropLast_subset _ hm)

/-! ## The normal-form characterization of FilePath::new -/

theorem fpCollapse_id {nodes : List (List Char)} (hfix : Fix1 nodes) :
    fpCollapse nodes = some nodes := by
  rw [fpCollapse.eq_def]
  by_cases hlen : 2 ≤ nodes.length
  · rw [if_pos hlen]
    cases nodes with
    | nil => rfl
    | cons x ts =>
      have hsw : ddSweep [x] ts = .clean := hfix
      show (match ddSweep [x] ts with
        | SweepRes.clean => some (x :: ts)
        | SweepRes.panic => none
        | SweepRes.removed ns' => ddIter ns'.length ns') = some (x :: ts)
      rw [hsw]
  · rw [if_neg hlen]

theorem fpDots_id {ns : List (List Char)} (hdot : dotCond ns) : fpDots ns = ns := by
  rw [fpDots, if_neg]
  rintro ⟨hin, hall⟩
  rcases hdot with hd | hd
  · exact hd hin
  · exact hall hd

theorem fpDots_props {ns : List (List Char)} (hfix : Fix1 ns) (hgood : Good ns) :
    Fix1 (fpDots ns) ∧ Good (fpDots ns) ∧ (∀ n ∈ fpDots ns, n ∈ ns) ∧
      dotCond (fpDots ns) := by
  rw [fpDots]
  by_cases hguard : dotN ∈ ns ∧ ¬ ∀ n ∈ ns, n = dotN
  · rw [if_pos hguard]
    refine ⟨Fix1_filter_dot hfix, Good_filter _ _ hgood,
      fun n hn => List.mem_of_mem_filter hn, Or.inl ?_⟩
    intro hm
    have := List.of_mem_filter hm
    simp at this
  · rw [if_neg hguard]
    refine ⟨hfix, hgood, fun n hn => hn, ?_⟩
    rw [not_and_or, not_not] at hguard
    exact hguard

theorem fpCollapse_props {nodes ns2 : List (List Char)} (hgood : Good nodes)
    (h : fpCollapse nodes = some ns2) :
    Fix1 ns2 ∧ Good ns2 ∧ ∀ n ∈ ns2, n ∈ nodes := by
  rw [fpCollapse.eq_def] at h
  by_cases hlen : 2 ≤ nodes.length
  · rw [if_pos hlen] at h
    cases nodes with
    | nil => simp at hlen
    | cons x ts =>
      have h' : (match ddSweep [x] ts with
          | SweepRes.clean => some (x :: ts)
          | SweepRes.panic => none
          | SweepRes.removed ns' => ddIter ns'.length ns') = some ns2 := h
      cases hsw : ddSweep [x] ts with
      | clean =>
        rw [hsw] at h'
        have he : ns2 = x :: ts := (Option.some.inj h').symm
        subst he
        exact ⟨hsw, hgood, fun n hn => hn⟩
      | panic =>
        rw [hsw] at h'
        exact Option.noConfusion h'
      | removed ns' =>
        rw [hsw] at h'
        obtain ⟨B, y, C, he, ho⟩ := ddSweep_removed_decomp ts [x] ns' hsw
        have he' : x :: ts = B ++ y :: dd :: C := by simpa using he
        have hg' : Good ns' := by
          rw [ho]
          exact Good_removal B y dd C (he' ▸ hgood)
        have hm' : ∀ n ∈ ns', n ∈ x :: ts := by
          intro n hn
          rw [ho] at hn
          rw [he']
          rcases List.mem_append.mp hn with e | e
          · exact List.mem_append.mpr (Or.inl e)
          · exact List.mem_append.mpr (Or.inr (by simp [e]))
        refine ⟨ddIter_fix _ _ _ (by omega) h', ?_, ?_⟩
        · exact ddIter_closed Good (fun B' y' C' => Good_removal B' y' dd C')
            _ _ _ hg' h'
        · refine ddIter_closed (fun l => ∀ n ∈ l, n ∈ x :: ts) ?_ _ _ _ hm' h'
          intro B' y' C' hP n hn
          apply hP
          rcases List.mem_append.mp hn with e | e
          · exact List.mem_append.mpr (Or.inl e)
          · exact List.mem_append.mpr (Or.inr (List.mem_cons_of_mem _
              (List.mem_cons_of_mem _ e)))
  · rw [if_neg hlen] at h
    have he : ns2 = nodes := (Option.some.inj h).symm
    subst he
    exact ⟨Fix1_short _ (by omega), hgood, fun n hn => hn⟩

theorem fpNew_NF_id {t : List Char} (h : NF t) : fpNew t = some t := by
  obtain ⟨hbs, hds, hfix, hdot⟩ := h
  rw [fpNew, repBS_id t hbs, dsIter_id t.length t hds, fpCollapse_id hfix]
  show some (joinSep (fpDots (splitSep t))) = some t
  rw [fpDots_id hdot, joinSep_splitSep]

theorem fpNew_some_NF {s t : List Char} (h : fpNew s = some t) : NF t := by
  rw [fpNew] at h
  set s2 := dsIter (repBS s).length (repBS s) with hs2
  have hbs2 : badSepC ∉ s2 := fun hm => repBS_not_mem s (mem_dsIter _ _ _ hm)
  have hds2 : hasDS s2 = false := dsIter_noDS _ _ (le_refl _)
  have hnsep : ∀ n ∈ splitSep s2, sepC ∉ n :=
    fun n hn => mem_splitOn_not_sep sepC s2 n hn
  have hnbs : ∀ n ∈ splitSep s2, badSepC ∉ n :=
    fun n hn hc => hbs2 (mem_splitOn_mem sepC s2 n hn badSepC hc)
  have hgood : Good (splitSep s2) := Good_splitSep s2 hds2
  cases hcol : fpCollapse (splitSep s2) with
  | none =>
    rw [hcol] at h
    exact Option.noConfusion h
  | some ns2 =>
    rw [hcol] at h
    have ht : t = joinSep (fpDots ns2) := (Option.some.inj h).symm
    obtain ⟨hfix2, hgood2, hmem2⟩ := fpCollapse_props hgood hcol
    obtain ⟨hfix3, hgood3, hmem3, hdot3⟩ := fpDots_props hfix2 hgood2
    have hnsep3 : ∀ n ∈ fpDots ns2, sepC ∉ n :=
      fun n hn => hnsep n (hmem2 n (hmem3 n hn))
    have hnbs3 : ∀ n ∈ fpDots ns2, badSepC ∉ n :=
      fun n hn => hnbs n (hmem2 n (hmem3 n hn))
    refine ⟨?_, ?_, ?_, ?_⟩
    · rw [ht]
      intro hc
      rcases mem_joinSep _ _ hc with e | ⟨n, hn, hcn⟩
      · exact sep_ne_badSep e.symm
      · exact hnbs3 n hn hcn
    · rw [ht]
      exact noDS_joinSep _ hnsep3 hgood3
    · by_cases hnil : fpDots ns2 = []
      · rw [ht, hnil]
        exact rfl
      · rw [ht, splitSep_joinSep _ hnil hnsep3]
        exact hfix3
    · by_cases hnil : fpDots ns2 = []
      · rw [ht, hnil]
        exact Or.inl (by decide)
      · rw [ht, splitSep_joinSep _ hnil hnsep3]
        exact hdot3

/-- Normalization maps every successful result to a fixed point. -/
theorem fpNew_idem {s t : List Char} (h : fpNew s = some t) : fpNew t = some t :=
  fpNew_NF_id (fpNew_some_NF h)

/-! ## Lemmas about the Boolean prefix and substring tests -/

theorem preB_iff : ∀ a b : List Char, preB a b = true ↔ ∃ t, b = a ++ t
  | [], b => by simp [preB]
  | x :: a', [] => by simp [preB]
  | x :: a', y :: b' => by
    rw [preB, Bool.and_eq_true, decide_eq_true_eq, preB_iff a' b']
    constructor
    · rintro ⟨rfl, t, rfl⟩
      exact ⟨t, rfl⟩
    · rintro ⟨t, he⟩
      obtain ⟨h1, h2⟩ := List.cons.inj he
      exact ⟨h1.symm, t, h2⟩

theorem preB_length {a b : List Char} (h : preB a b = true) : a.length ≤ b.length := by
  obtain ⟨t, rfl⟩ := (preB_iff a b).mp h
  simp

theorem preB_append (a t : List Char) : preB a (a ++ t) = true :=
  (preB_iff a (a ++ t)).mpr ⟨t, rfl⟩

theorem preB_refl (a : List Char) : preB a a = true := by
  have := preB_append a []
  simpa using this

theorem preB_of_preB_of_le : ∀ (c a b : List Char), preB a c = true →
    preB b c = true → a.length ≤ b.length → preB a b = true
  | _, [], _, _, _, _ => rfl
  | [], x :: a', b, ha, _, _ => by simp [preB] at ha
  | c0 :: c', x :: a', [], _, _, hl => by simp at hl
  | c0 :: c', x :: a', y :: b', ha, hb, hl => by
    rw [preB, Bool.and_eq_true, decide_eq_true_eq] at ha hb ⊢
    refine ⟨ha.1.trans hb.1.symm, ?_⟩
    exact preB_of_preB_of_le c' a' b' ha.2 hb.2 (by simpa using hl)

theorem subB_length : ∀ (s pat : List Char), subB pat s = true →
    pat.length ≤ s.length
  | [], pat, h => by
    rw [subB] at h
    exact preB_length h
  | c :: r, pat, h => by
    rw [subB, Bool.or_eq_true] at h
    rcases h with h' | h'
    · exact preB_length h'
    · have := subB_length r pat h'
      simp only [List.length_cons]
      omega

theorem subB_false_of_lt {s pat : List Char} (h : s.length < pat.length) :
    subB pat s = false := by
  cases hs : subB pat s
  · rfl
  · have := subB_length s pat hs
    omega

theorem preB_trans {a b c : List Char} (h1 : preB a b = true)
    (h2 : preB b c = true) : preB a c = true := by
  obtain ⟨t1, rfl⟩ := (preB_iff a b).mp h1
  obtain ⟨t2, rfl⟩ := (preB_iff _ c).mp h2
  rw [List.append_assoc]
  exact preB_append a _

/-! ## Lemmas about trailing separators and trailing empty nodes -/

theorem head_dropWhile_ne {p : Char → Bool} :
    ∀ (l : List Char) (a : Char), (l.dropWhile p).head? = some a → p a = false
  | [], a, h => by simp [List.dropWhile] at h
  | c :: r, a, h => by
    rw [List.dropWhile] at h
    cases hp : p c
    · rw [hp] at h
      simp only [List.head?_cons, Option.some.injEq] at h
      rw [← h]
      exact hp
    · rw [hp] at h
      exact head_dropWhile_ne r a h

theorem mem_dropWhile_mem {p : Char → Bool} :
    ∀ (l : List Char) (c : Char), c ∈ l.dropWhile p → c ∈ l
  | [], c, h => by simp [List.dropWhile] at h
  | a :: r, c, h => by
    rw [List.dropWhile] at h
    cases hp : p a
    · rw [hp] at h
      exact h
    · rw [hp] at h
      exact List.mem_cons_of_mem a (mem_dropWhile_mem r c h)

theorem mem_dropTrailingSep_mem {p : List Char} {c : Char}
    (h : c ∈ dropTrailingSep p) : c ∈ p := by
  rw [dropTrailingSep, List.mem_reverse] at h
  have := mem_dropWhile_mem p.reverse c h
  rwa [List.mem_reverse] at this

theorem dropTrailingSep_getLast {p : List Char} :
    (dropTrailingSep p).getLast? ≠ some sepC := by
  rw [dropTrailingSep, List.getLast?_reverse]
  intro h
  have := head_dropWhile_ne p.reverse sepC h
  simp at this

theorem dropTrailingSep_decomp (p : List Char) :
    ∃ k, p = dropTrailingSep p ++ List.replicate k sepC := by
  refine ⟨(p.reverse.takeWhile (· = sepC)).length, ?_⟩
  have h1 : p.reverse.takeWhile (· = sepC) =
      List.replicate (p.reverse.takeWhile (· = sepC)).length sepC := by
    apply List.eq_replicate_of_mem
    intro b hb
    have := List.mem_takeWhile_imp hb
    simpa using this
  have htw : (p.reverse.takeWhile (· = sepC)).reverse =
      List.replicate (p.reverse.takeWhile (· = sepC)).length sepC := by
    conv_lhs => rw [h1]
    rw [List.reverse_replicate]
  conv_lhs => rw [← p.reverse_reverse,
    ← List.takeWhile_append_dropWhile (p := (· = sepC)) (l := p.reverse)]
  rw [List.reverse_append, htw, dropTrailingSep]

theorem dropTrailingSep_append_replicate (a : List Char) (k : Nat) :
    dropTrailingSep (a ++ List.replicate k sepC) = dropTrailingSep a := by
  rw [dropTrailingSep, dropTrailingSep, List.reverse_append, List.reverse_replicate]
  congr 1
  induction k with
  | zero => rfl
  | succ k ih =>
    rw [List.replicate_succ, List.cons_append, List.dropWhile_cons_of_pos (by simp)]
    exact ih

theorem dropTrailingSep_id {a : List Char} (h : a.getLast? ≠ some sepC) :
    dropTrailingSep a = a := by
  rw [dropTrailingSep]
  cases hrev : a.reverse with
  | nil =>
    have : a = [] := by simpa using congrArg List.reverse hrev
    rw [this]
    rfl
  | cons c r =>
    have hc : c ≠ sepC := by
      intro e
      apply h
      rw [← List.head?_reverse, hrev, List.head?_cons, e]
    rw [List.dropWhile_cons_of_neg (by simp [hc]), ← hrev, List.reverse_reverse]

theorem hasColon_dropTrailingSep (p : List Char) :
    hasColon (dropTrailingSep p) = hasColon p := by
  obtain ⟨k, hk⟩ := dropTrailingSep_decomp p
  rw [hasColon, hasColon]
  by_cases h : ':' ∈ dropTrailingSep p
  · rw [decide_eq_true h, decide_eq_true (mem_dropTrailingSep_mem h)]
  · have h2 : ':' ∉ p := by
      intro hm
      rw [hk] at hm
      rcases List.mem_append.mp hm with e | e
      · exact h e
      · have := List.eq_of_mem_replicate e
        simp [sepC] at this
    rw [decide_eq_false h, decide_eq_false h2]

theorem mem_dTE : ∀ (l : List (List Char)) (x : List Char),
    x ∈ dropTrailingE l → x ∈ l
  | [], x, h => by simp [dropTrailingE] at h
  | a :: t, x, h => by
    rw [dropTrailingE] at h
    cases hd : dropTrailingE t with
    | nil =>
      rw [hd] at h
      by_cases ha : a = []
      · rw [if_pos ha] at h
        simp at h
      · rw [if_neg ha] at h
        rcases List.mem_singleton.mp h with rfl
        simp
    | cons m ms =>
      rw [hd] at h
      rcases List.mem_cons.mp h with e | e
      · rw [e]
        simp
      · exact List.mem_cons_of_mem a (mem_dTE t x (by rw [hd]; exact e))

theorem dTE_eq_nil_iff : ∀ l : List (List Char),
    dropTrailingE l = [] ↔ ∀ x ∈ l, x = []
  | [] => by simp [dropTrailingE]
  | a :: t => by
    rw [dropTrailingE]
    cases hd : dropTrailingE t with
    | nil =>
      have ht := (dTE_eq_nil_iff t).mp hd
      by_cases ha : a = []
      · rw [if_pos ha]
        constructor
        · intro _ x hx
          rcases List.mem_cons.mp hx with e | e
          · rw [e, ha]
          · exact ht x e
        · intro _
          rfl
      · rw [if_neg ha]
        constructor
        · intro h
          exact absurd h (by simp)
        · intro h
          exact absurd (h a (by simp)) ha
    | cons m ms =>
      constructor
      · intro h
        exact absurd h (by simp)
      · intro h
        have : dropTrailingE t = [] := (dTE_eq_nil_iff t).mpr
          fun x hx => h x (List.mem_cons_of_mem a hx)
        rw [this] at hd
        exact absurd hd.symm (by simp)

theorem dTE_decomp : ∀ l : List (List Char),
    ∃ k, l = dropTrailingE l ++ List.replicate k ([] : List Char)
  | [] => ⟨0, rfl⟩
  | a :: t => by
    obtain ⟨k, hk⟩ := dTE_decomp t
    rw [dropTrailingE]
    cases hd : dropTrailingE t with
    | nil =>
      have htall : ∀ x ∈ t, x = [] := (dTE_eq_nil_iff t).mp hd
      have ht : t = List.replicate t.length ([] : List Char) :=
        List.eq_replicate_of_mem htall
      by_cases ha : a = []
      · rw [if_pos ha]
        refine ⟨t.length + 1, ?_⟩
        rw [List.nil_append, List.replicate_succ, ha]
        exact congrArg (List.cons []) ht
      · rw [if_neg ha]
        refine ⟨t.length, ?_⟩
        rw [List.singleton_append]
        exact congrArg (List.cons a) ht
    | cons m ms =>
      rw [hd] at hk
      exact ⟨k, by rw [List.cons_append]; exact congrArg (List.cons a) hk⟩

theorem dTE_last_ne : ∀ (l : List (List Char)), dropTrailingE l ≠ [] →
    (dropTrailingE l).getLastD [] ≠ []
  | [], h => absurd rfl h
  | a :: t, h => by
    cases hd : dropTrailingE t with
    | nil =>
      have he : dropTrailingE (a :: t) = if a = [] then [] else [a] := by
        rw [dropTrailingE, hd]
      rw [he] at h ⊢
      by_cases ha : a = []
      · rw [if_pos ha] at h
        exact absurd rfl h
      · rw [if_neg ha]
        simpa using ha
    | cons m ms =>
      have he : dropTrailingE (a :: t) = a :: m :: ms := by
        rw [dropTrailingE, hd]
      rw [he]
      have ih := dTE_last_ne t (by rw [hd]; simp)
      rw [hd] at ih
      simpa using ih

/-! ## Lemmas about separators inside split and join -/

theorem splitOn_append_sep (sep : Char) :
    ∀ a b : List Char, splitOn sep (a ++ sep :: b) = splitOn sep a ++ splitOn sep b
  | [], b => by
    simp [splitOn]
  | c :: a', b => by
    rw [List.cons_append, splitOn, splitOn]
    by_cases hc : c = sep
    · rw [if_pos hc, if_pos hc, splitOn_append_sep sep a' b]
      rfl
    · rw [if_neg hc, if_neg hc, splitOn_append_sep sep a' b]
      match hsp : splitOn sep a' with
      | [] => exact absurd hsp (splitOn_ne_nil sep a')
      | m :: ms => rfl

theorem splitOn_replicate_sep (sep : Char) :
    ∀ k : Nat, splitOn sep (List.replicate k sep) = List.replicate (k + 1) []
  | 0 => rfl
  | k + 1 => by
    rw [List.replicate_succ, splitOn, if_pos rfl, splitOn_replicate_sep sep k]
    rfl

theorem splitSep_append_replicate (a : List Char) (k : Nat) :
    splitSep (a ++ List.replicate k sepC) =
      splitSep a ++ List.replicate k ([] : List Char) := by
  cases k with
  | zero => simp
  | succ j =>
    rw [List.replicate_succ, splitSep, splitOn_append_sep sepC a _,
      splitOn_replicate_sep sepC j]
    rfl

theorem joinSep_append_single : ∀ (A : List (List Char)) (n : List Char),
    A ≠ [] → joinSep (A ++ [n]) = joinSep A ++ sepC :: n
  | [], _, h => absurd rfl h
  | [x], n, _ => by
    rw [List.singleton_append, joinSep, joinSep, joinSep]
  | x :: y :: t, n, _ => by
    have ih := joinSep_append_single (y :: t) n (by simp)
    calc joinSep ((x :: y :: t) ++ [n])
        = x ++ sepC :: joinSep ((y :: t) ++ [n]) := rfl
      _ = x ++ sepC :: (joinSep (y :: t) ++ sepC :: n) := by rw [ih]
      _ = (x ++ sepC :: joinSep (y :: t)) ++ sepC :: n := by
          rw [List.append_assoc, List.cons_append]

theorem joinSep_append_replicate_nil :
    ∀ (k : Nat) (A : List (List Char)), A ≠ [] →
      joinSep (A ++ List.replicate k []) = joinSep A ++ List.replicate k sepC
  | 0, A, _ => by simp
  | k + 1, A, hA => by
    have h1 : A ++ List.replicate (k + 1) ([] : List Char) =
        (A ++ [[]]) ++ List.replicate k [] := by
      rw [List.append_assoc, List.replicate_succ]
      rfl
    rw [h1, joinSep_append_replicate_nil k (A ++ [[]]) (by simp),
      joinSep_append_single A [] hA]
    simp [List.replicate_succ]

theorem Fix1_append_replicate_nil :
    ∀ (k : Nat) (A : List (List Char)),
      Fix1 (A ++ List.replicate k []) → Fix1 A
  | 0, A, h => by simpa using h
  | k + 1, A, h => by
    have hd : (A ++ List.replicate (k + 1) ([] : List Char)).dropLast =
        A ++ List.replicate k [] := by
      rw [List.dropLast_append_of_ne_nil _ (by simp), List.dropLast_replicate]
      simp
    exact Fix1_append_replicate_nil k A (hd ▸ Fix1_dropLast h)

theorem Good_append_left : ∀ A B : List (List Char), Good (A ++ B) → Good A
  | [], _, _ => trivial
  | a :: A', B, h => by
    rw [List.cons_append] at h
    exact ABL_append_left A' B h

theorem dotCond_append_replicate_nil {A : List (List Char)} {k : Nat}
    (h : dotCond (A ++ List.replicate k [])) : dotCond A := by
  rcases h with h | h
  · exact Or.inl fun hm => h (List.mem_append.mpr (Or.inl hm))
  · cases k with
    | zero => exact Or.inr (by simpa using h)
    | succ j =>
      have : ([] : List Char) = dotN := h [] (List.mem_append.mpr (Or.inr (by simp)))
      exact absurd this (by decide)

theorem noDS_append_left : ∀ a b : List Char, hasDS (a ++ b) = false →
    hasDS a = false
  | [], _, _ => rfl
  | [_], _, _ => rfl
  | c :: d :: a', b, h => by
    simp only [List.cons_append] at h
    rw [hasDS] at h
    rw [hasDS]
    rcases Bool.or_eq_false_iff.mp h with ⟨h1, h2⟩
    rw [h1, Bool.false_or]
    apply noDS_append_left (d :: a') b
    simp only [List.cons_append]
    exact h2

theorem noDS_append_name : ∀ (a : List Char) (n : List Char),
    hasDS a = false → a.getLast? ≠ some sepC → sepC ∉ n → n ≠ [] →
    hasDS (a ++ sepC :: n) = false
  | [], n, _, _, hn, hne => by
    rw [List.nil_append]
    cases n with
    | nil => exact absurd rfl hne
    | cons c n' =>
      rw [hasDS]
      have hc : c ≠ sepC := fun e => hn (by simp [e])
      have : hasDS (c :: n') = false :=
        noDS_of_not_mem _ hn
      simp [hc, this]
  | [d], n, _, hlast, hn, hne => by
    have hd : d ≠ sepC := by
      intro e
      exact hlast (by simp [e])
    rw [List.singleton_append, hasDS]
    have htail : hasDS (sepC :: n) = false :=
      noDS_append_name [] n rfl (by simp) hn hne
    simp [hd, htail]
  | c :: d :: a', n, hds, hlast, hn, hne => by
    rw [hasDS] at hds
    rcases Bool.or_eq_false_iff.mp hds with ⟨h1, h2⟩
    have htail : hasDS ((d :: a') ++ sepC :: n) = false :=
      noDS_append_name (d :: a') n h2 (by
        intro e
        exact hlast (by
          rw [List.getLast?_cons_cons]
          exact e)) hn hne
    simp only [List.cons_append] at htail ⊢
    rw [hasDS, h1, Bool.false_or]
    exact htail

/-! ## Normal forms are closed under trimming and child extension -/

theorem NF_dropTrailingSep {q : List Char} (hq : NF q) : NF (dropTrailingSep q) := by
  obtain ⟨hbs, hds, hfix, hdot⟩ := hq
  obtain ⟨k, hk⟩ := dropTrailingSep_decomp q
  have hsplit : splitSep q = splitSep (dropTrailingSep q) ++ List.replicate k [] := by
    conv_lhs => rw [hk]
    exact splitSep_append_replicate _ k
  refine ⟨?_, ?_, ?_, ?_⟩
  · exact fun hm => hbs (mem_dropTrailingSep_mem hm)
  · exact noDS_append_left _ _ (by rw [← hk]; exact hds)
  · exact Fix1_append_replicate_nil k _ (by rw [← hsplit]; exact hfix)
  · exact dotCond_append_replicate_nil (by rw [← hsplit]; exact hdot)

theorem hasColon_mem_nodes {v : List Char} (hc : hasColon v = true) :
    ∃ n ∈ splitSep v, ':' ∈ n := by
  rw [hasColon, decide_eq_true_eq] at hc
  rw [← joinSep_splitSep v] at hc
  rcases mem_joinSep _ _ hc with e | ⟨n, hn, hcn⟩
  · exact absurd e (by decide)
  · exact ⟨n, hn, hcn⟩

theorem noDot_of_colon {q : List Char} (hq : NF q) (hc : hasColon q = true) :
    dotN ∉ splitSep q := by
  intro hmem
  rcases hq.2.2.2 with h | h
  · exact h hmem
  · obtain ⟨n, hn, hcn⟩ := hasColon_mem_nodes hc
    have := h n hn
    rw [this] at hcn
    exact absurd hcn (by decide)

theorem NF_child {q n : List Char} (hq : NF q) (hnodot : dotN ∉ splitSep q)
    (hn : goodName n) : NF (dropTrailingSep q ++ sepC :: n) := by
  obtain ⟨hne, hnsep, hnbs, hndot, hndd⟩ := hn
  have hdT := NF_dropTrailingSep hq
  obtain ⟨hbs', hds', hfix', hdot'⟩ := hdT
  obtain ⟨k, hk⟩ := dropTrailingSep_decomp q
  have hsplit : splitSep q = splitSep (dropTrailingSep q) ++ List.replicate k [] := by
    conv_lhs => rw [hk]
    exact splitSep_append_replicate _ k
  have hsub : ∀ x ∈ splitSep (dropTrailingSep q), x ∈ splitSep q := by
    intro x hx
    rw [hsplit]
    exact List.mem_append.mpr (Or.inl hx)
  have hchild : splitSep (dropTrailingSep q ++ sepC :: n) =
      splitSep (dropTrailingSep q) ++ [n] := by
    rw [splitSep, splitOn_append_sep sepC _ n, splitOn_of_not_mem sepC n hnsep]
    rfl
  refine ⟨?_, ?_, ?_, ?_⟩
  · intro hm
    rcases List.mem_append.mp hm with e | e
    · exact hbs' e
    · rcases List.mem_cons.mp e with e' | e'
      · exact sep_ne_badSep e'.symm
      · exact hnbs e'
  · exact noDS_append_name _ n hds' dropTrailingSep_getLast hnsep hne
  · rw [hchild]
    exact Fix1_append_single hfix' hndd
  · rw [hchild]
    refine Or.inl ?_
    intro hm
    rcases List.mem_append.mp hm with e | e
    · exact hnodot (hsub _ e)
    · exact hndot (List.mem_singleton.mp e).symm

/-! ## The structure of parent_dir on normalized absolute paths -/

theorem mem_of_getLast?_eq {α : Type} {l : List α} {a : α}
    (h : l.getLast? = some a) : a ∈ l :=
  List.mem_of_mem_getLast? (by rw [h]; exact Option.mem_some_iff.mpr rfl)

theorem pathNodes_last_ne_dd {v : List Char} (hv : NF v)
    (hcol : hasColon v = true) : (pathNodes v).getLastD [] ≠ dd := by
  intro hlast
  obtain ⟨k2, hk2⟩ := dTE_decomp (splitSep v)
  rw [show dropTrailingE (splitSep v) = pathNodes v from rfl] at hk2
  obtain ⟨k, t, hdec, hddt⟩ := (Fix1_iff_decomp _).mp hv.2.2.1
  obtain ⟨n, hn, hcn⟩ := hasColon_mem_nodes hcol
  by_cases hnil : pathNodes v = []
  · rw [hnil] at hlast
    exact absurd hlast (by decide)
  · have h1 : (pathNodes v).getLast? = some ((pathNodes v).getLast hnil) :=
      List.getLast?_eq_getLast _ hnil
    rw [List.getLastD_eq_getLast?, h1] at hlast
    simp only [Option.getD_some] at hlast
    have hAdd : (pathNodes v).dropLast ++ [dd] = pathNodes v := by
      rw [← hlast]
      exact List.dropLast_append_getLast hnil
    have hEq : ((pathNodes v).dropLast ++ [dd]) ++ List.replicate k2 ([] : List Char) =
        List.replicate k dd ++ t := by
      rw [hAdd, ← hk2, hdec]
    have ht : t = (((pathNodes v).dropLast ++ [dd]) ++
        List.replicate k2 ([] : List Char)).drop (List.replicate k dd).length := by
      rw [hEq]
      exact (List.drop_left _ t).symm
    rcases le_or_lt ((pathNodes v).dropLast.length + 1) (List.replicate k dd).length
      with hle | hlt
    · have hAlen : ((pathNodes v).dropLast ++ [dd]).length =
          (pathNodes v).dropLast.length + 1 := by simp
      have ht2 : t = (List.replicate k2 ([] : List Char)).drop
          ((List.replicate k dd).length - ((pathNodes v).dropLast ++ [dd]).length) := by
        obtain ⟨i, hi⟩ : ∃ i, (List.replicate k dd).length =
            ((pathNodes v).dropLast ++ [dd]).length + i := by
          refine ⟨(List.replicate k dd).length -
            ((pathNodes v).dropLast ++ [dd]).length, ?_⟩
          rw [hAlen]
          simp only [List.length_replicate] at hle ⊢
          omega
        rw [ht, hi, List.drop_append]
        congr 1
        omega
      have htall : ∀ x ∈ t, x = [] := by
        intro x hx
        rw [ht2] at hx
        exact List.eq_of_mem_replicate (List.drop_subset _ _ hx)
      have hnode : ∀ m ∈ splitSep v, m = dd ∨ m = [] := by
        intro m hm
        rw [hdec] at hm
        rcases List.mem_append.mp hm with e | e
        · exact Or.inl (List.eq_of_mem_replicate e)
        · exact Or.inr (htall m e)
      rcases hnode n hn with e | e <;> rw [e] at hcn <;> exact absurd hcn (by decide)
    · have h0 : (List.replicate k dd).length - (pathNodes v).dropLast.length = 0 := by
        simp only [List.length_replicate] at hlt ⊢
        omega
      have ht2 : t = (pathNodes v).dropLast.drop (List.replicate k dd).length ++
          ([dd] ++ List.replicate k2 ([] : List Char)) := by
        rw [ht, List.append_assoc, List.drop_append_eq_append_drop, h0, List.drop_zero]
      have : dd ∈ t := by
        rw [ht2]
        simp
      exact hddt this

theorem parentDirF_NF (fs : FS) {v : List Char} (hv : NF v)
    (hcol : hasColon v = true) :
    (parentDirF fs v = .err ∧ (pathNodes v).length ≤ 1) ∨
    (∃ p last, parentDirF fs v = .ok p ∧
      dropTrailingSep v = p ++ sepC :: last ∧ sepC ∉ last ∧ last ≠ [] ∧ NF p) := by
  have hlastne := pathNodes_last_ne_dd hv hcol
  rw [parentDirF, show (2 : Nat) = 1 + 1 from rfl, parentDirCore]
  rw [if_neg hlastne]
  by_cases hlen : (pathNodes v).length ≤ 1
  · rw [if_pos hlen, if_pos hcol]
    exact Or.inl ⟨rfl, hlen⟩
  · rw [if_neg hlen]
    have hns_ne : pathNodes v ≠ [] := by
      intro e
      rw [e] at hlen
      simp at hlen
    obtain ⟨k2, hk2⟩ := dTE_decomp (splitSep v)
    rw [show dropTrailingE (splitSep v) = pathNodes v from rfl] at hk2
    have hsep_ns : ∀ n ∈ pathNodes v, sepC ∉ n :=
      fun n hn => mem_splitOn_not_sep sepC v n (mem_dTE _ _ hn)
    have hbs_ns : ∀ n ∈ pathNodes v, badSepC ∉ n :=
      fun n hn hc => hv.1 (mem_splitOn_mem sepC v n (mem_dTE _ _ hn) badSepC hc)
    have hv_eq : v = joinSep (pathNodes v) ++ List.replicate k2 sepC := by
      conv_lhs => rw [← joinSep_splitSep v, hk2]
      exact joinSep_append_replicate_nil k2 _ hns_ne
    have hlast_ne : (pathNodes v).getLastD [] ≠ [] := dTE_last_ne _ hns_ne
    have hlast_mem : (pathNodes v).getLastD [] ∈ pathNodes v := by
      rw [List.getLastD_eq_getLast?, List.getLast?_eq_getLast _ hns_ne]
      exact mem_of_getLast?_eq (List.getLast?_eq_getLast _ hns_ne)
    have hdrop_ne : (pathNodes v).dropLast ≠ [] := by
      intro e
      have := congrArg List.length e
      simp only [List.length_dropLast, List.length_nil] at this
      omega
    have hjoin : joinSep (pathNodes v) =
        joinSep (pathNodes v).dropLast ++ sepC :: (pathNodes v).getLastD [] := by
      conv_lhs => rw [show pathNodes v =
        (pathNodes v).dropLast ++ [(pathNodes v).getLast hns_ne] from
        (List.dropLast_append_getLast hns_ne).symm]
      rw [joinSep_append_single _ _ hdrop_ne]
      congr 1
      rw [List.getLastD_eq_getLast?, List.getLast?_eq_getLast _ hns_ne]
      rfl
    have hdT : dropTrailingSep v = joinSep (pathNodes v) := by
      have haux : ∀ w, w = joinSep (pathNodes v) ++ List.replicate k2 sepC →
          dropTrailingSep w = joinSep (pathNodes v) := by
        rintro w rfl
        rw [dropTrailingSep_append_replicate]
        apply dropTrailingSep_id
        rw [hjoin, List.getLast?_append_of_ne_nil _ (by simp)]
        intro hcontra
        cases hq : (pathNodes v).getLastD [] with
        | nil => exact hlast_ne hq
        | cons c cs =>
          rw [hq, List.getLast?_cons_cons] at hcontra
          have hmem : sepC ∈ c :: cs := mem_of_getLast?_eq hcontra
          rw [hq] at hlast_mem
          exact hsep_ns _ hlast_mem hmem
      exact haux v hv_eq
    have hv2 : v = joinSep (pathNodes v).dropLast ++
        (sepC :: (pathNodes v).getLastD [] ++ List.replicate k2 sepC) := by
      rw [← List.append_assoc, ← hjoin]
      exact hv_eq
    have htake : v.take (joinSep (pathNodes v).dropLast).length =
        joinSep (pathNodes v).dropLast := by
      have haux : ∀ w, w = joinSep (pathNodes v).dropLast ++
          (sepC :: (pathNodes v).getLastD [] ++ List.replicate k2 sepC) →
          w.take (joinSep (pathNodes v).dropLast).length =
            joinSep (pathNodes v).dropLast := by
        rintro w rfl
        exact List.take_left _ _
      exact haux v hv2
    have hGood_ns : Good (pathNodes v) :=
      Good_append_left _ _ (by rw [← hk2]; exact Good_splitSep v hv.2.1)
    have hFix_ns : Fix1 (pathNodes v) :=
      Fix1_append_replicate_nil k2 _ (by rw [← hk2]; exact hv.2.2.1)
    have hdot_ns : dotCond (pathNodes v) :=
      dotCond_append_replicate_nil (by rw [← hk2]; exact hv.2.2.2)
    have hsplitJ : splitSep (joinSep (pathNodes v).dropLast) = (pathNodes v).dropLast :=
      splitSep_joinSep _ hdrop_ne fun n hn => hsep_ns n (List.dropLast_subset _ hn)
    have hNFp : NF (joinSep (pathNodes v).dropLast) := by
      refine ⟨?_, ?_, ?_, ?_⟩
      · intro hm
        rcases mem_joinSep _ _ hm with e | ⟨n, hn, hcn⟩
        · exact sep_ne_badSep e.symm
        · exact hbs_ns n (List.dropLast_subset _ hn) hcn
      · exact noDS_joinSep _ (fun n hn => hsep_ns n (List.dropLast_subset _ hn))
          (Good_dropLast _ hGood_ns)
      · rw [hsplitJ]
        exact Fix1_dropLast hFix_ns
      · rw [hsplitJ]
        rcases hdot_ns with h | h
        · exact Or.inl fun hm => h (List.dropLast_subset _ hm)
        · exact Or.inr fun x hx => h x (List.dropLast_subset _ hx)
    rw [htake, fpNew_NF_id hNFp]
    refine Or.inr ⟨joinSep (pathNodes v).dropLast, (pathNodes v).getLastD [],
      rfl, ?_, hsep_ns _ hlast_mem, hlast_ne, hNFp⟩
    rw [hdT, hjoin]

/-! ## Panic freedom of the scanner plumbing -/

theorem mapFpNew_id : ∀ es : List (List Char), (∀ e ∈ es, fpNew e = some e) →
    mapFpNew es = some es
  | [], _ => rfl
  | e :: r, h => by
    rw [mapFpNew, h e (by simp), mapFpNew_id r fun x hx => h x (List.mem_cons_of_mem e hx)]
    rfl

theorem absoluteP_colon {fs : FS} {a : List Char} (ha : hasColon a = true) :
    absoluteP fs a = some a := by
  rw [absoluteP, if_pos ha]

theorem feq_some {fs : FS} {a b : List Char} (ha : hasColon a = true)
    (hb : hasColon b = true) : ∃ r, feq fs a b = some r := by
  rw [feq]
  by_cases he : a = b
  · rw [if_pos he]
    exact ⟨true, rfl⟩
  · rw [if_neg he, absoluteP_colon ha, absoluteP_colon hb]
    exact ⟨decide (a = b), rfl⟩

theorem posEq_some {fs : FS} {sk : List Char} (hsk : hasColon sk = true) :
    ∀ entries : List (List Char), (∀ e ∈ entries, hasColon e = true) →
      ∃ r, posEq fs entries sk = some r
  | [], _ => ⟨none, rfl⟩
  | e :: rest, h => by
    obtain ⟨r0, hr0⟩ := @feq_some fs _ _ (h e (by simp)) hsk
    obtain ⟨r1, hr1⟩ := posEq_some hsk rest fun x hx => h x (List.mem_cons_of_mem e hx)
    rw [posEq, hr0]
    cases r0 with
    | true => exact ⟨some 0, rfl⟩
    | false =>
      rw [hr1]
      cases r1 with
      | none => exact ⟨none, rfl⟩
      | some i => exact ⟨some (i + 1), rfl⟩

theorem startIndex_some {fs : FS} {entries : List (List Char)}
    {last : Option (List Char)} (hent : ∀ e ∈ entries, hasColon e = true)
    (hlast : LastOK last) : ∃ r, startIndex fs entries last = some r := by
  cases last with
  | none => exact ⟨0, rfl⟩
  | some sk =>
    obtain ⟨r, hr⟩ := @posEq_some fs _ hlast.2 entries hent
    rw [startIndex, hr]
    cases r with
    | none => exact ⟨0, rfl⟩
    | some i => exact ⟨i + 1, rfl⟩

/-! ## The traversal invariant of find_next_file_at -/

theorem scanEntries_inv (cfg : Config) (fs : FS)
    (next : List Char → ScanRes × List (List Char)) (C : List Char → Prop)
    (Q : List Char → Prop)
    (hnext : ∀ e, C e → isDirF fs e = true → cfg.recurseFilter e = true →
      (next e).1 ≠ .panic ∧ ∀ x, (next e).1 = .found x → Q x)
    (hCQ : ∀ e, C e → Q e) :
    ∀ es : List (List Char), (∀ e ∈ es, C e) →
      (scanEntries cfg fs next es).1 ≠ .panic ∧
      (∀ x, (scanEntries cfg fs next es).1 = .found x → Q x)
  | [], _ => by
    rw [scanEntries]
    exact ⟨by simp, fun x hx => ScanRes.noConfusion hx⟩
  | e :: rest, h => by
    have hCe : C e := h e (by simp)
    have hrest := scanEntries_inv cfg fs next C Q hnext hCQ rest
      fun x hx => h x (List.mem_cons_of_mem e hx)
    rw [scanEntries]
    by_cases hyield : (((isDirF fs e && cfg.includeDirs) ||
        (!(isDirF fs e) && cfg.includeFiles)) && cfg.resultsFilter e) = true
    · rw [if_pos hyield]
      exact ⟨by simp, fun x hx => (ScanRes.found.inj hx) ▸ hCQ e hCe⟩
    · rw [if_neg hyield]
      by_cases hrec : (isDirF fs e && cfg.recurseFilter e) = true
      · rw [if_pos hrec]
        rw [Bool.and_eq_true] at hrec
        obtain ⟨hne, hfound⟩ := hnext e hCe hrec.1 hrec.2
        rcases hres : next e with ⟨r, tr⟩
        rw [hres] at hne hfound
        cases r with
        | found x =>
          exact ⟨by simp, fun y hy => (ScanRes.found.inj hy) ▸ hfound x rfl⟩
        | notFound =>
          exact ⟨hrest.1, hrest.2⟩
        | panic => exact absurd rfl hne
        | fuelOut =>
          exact ⟨by simp, fun y hy => ScanRes.noConfusion hy⟩
      · rw [if_neg hrec]
        exact hrest

theorem findNextFileAt_map_none {cfg : Config} {sd : List Char} {fs : FS}
    {fuel : Nat} {dir : List Char} {last : Option (List Char)}
    (hmap : mapFpNew ((fs.readDir dir).getD []) = none) :
    findNextFileAt cfg sd fs (fuel + 1) dir last = (.panic, [dir]) := by
  rw [findNextFileAt, hmap]

theorem findNextFileAt_map_some {cfg : Config} {sd : List Char} {fs : FS}
    {fuel : Nat} {dir : List Char} {last : Option (List Char)}
    {entries0 : List (List Char)}
    (hmap : mapFpNew ((fs.readDir dir).getD []) = some entries0) :
    findNextFileAt cfg sd fs (fuel + 1) dir last =
      match startIndex fs (sortDirsFirst fs entries0) last with
      | none => (ScanRes.panic, [dir])
      | some start =>
        match scanEntries cfg fs (fun e => findNextFileAt cfg sd fs fuel e none)
            ((sortDirsFirst fs entries0).drop start) with
        | (.notFound, tr) =>
          match parentDirF fs dir with
          | .panic => (.panic, dir :: tr)
          | .err => (.notFound, dir :: tr)
          | .ok p =>
            if subB sd p then
              match findNextFileAt cfg sd fs fuel p (some dir) with
              | (r2, tr2) => (r2, dir :: (tr ++ tr2))
            else (.notFound, dir :: tr)
        | (r, tr) => (r, dir :: tr) := by
  rw [findNextFileAt, hmap]

theorem findNextFileAt_start_none {cfg : Config} {sd : List Char} {fs : FS}
    {fuel : Nat} {dir : List Char} {last : Option (List Char)}
    {entries0 : List (List Char)}
    (hmap : mapFpNew ((fs.readDir dir).getD []) = some entries0)
    (hstart : startIndex fs (sortDirsFirst fs entries0) last = none) :
    findNextFileAt cfg sd fs (fuel + 1) dir last = (.panic, [dir]) := by
  rw [findNextFileAt_map_some hmap, hstart]

theorem findNextFileAt_succ_eq {cfg : Config} {sd : List Char} {fs : FS}
    {fuel : Nat} {dir : List Char} {last : Option (List Char)}
    {entries0 : List (List Char)} {start : Nat}
    (hmap : mapFpNew ((fs.readDir dir).getD []) = some entries0)
    (hstart : startIndex fs (sortDirsFirst fs entries0) last = some start) :
    findNextFileAt cfg sd fs (fuel + 1) dir last =
      match scanEntries cfg fs (fun e => findNextFileAt cfg sd fs fuel e none)
          ((sortDirsFirst fs entries0).drop start) with
      | (.notFound, tr) =>
        match parentDirF fs dir with
        | .panic => (.panic, dir :: tr)
        | .err => (.notFound, dir :: tr)
        | .ok p =>
          if subB sd p then
            match findNextFileAt cfg sd fs fuel p (some dir) with
            | (r2, tr2) => (r2, dir :: (tr ++ tr2))
          else (.notFound, dir :: tr)
      | (r, tr) => (r, dir :: tr) := by
  rw [findNextFileAt_map_some hmap, hstart]

theorem inv_cast (G : List Char → Prop) (x y : ScanRes × List (List Char))
    (hxy : x = y) (h1 : y.1 ≠ ScanRes.panic)
    (h2 : ∀ e, y.1 = ScanRes.found e → YieldsFrom G e) :
    x.1 ≠ ScanRes.panic ∧ ∀ e, x.1 = ScanRes.found e → YieldsFrom G e :=
  ⟨hxy ▸ h1, hxy ▸ h2⟩

theorem findNext_inv (cfg : Config) (sd : List Char) (fs : FS) (hwf : fs.WF)
    (G : List Char → Prop)
    (hGnf : ∀ v, G v → NF v ∧ hasColon v = true)
    (hGchild : ∀ v n, G v → goodName n →
      isDirF fs (dropTrailingSep v ++ sepC :: n) = true →
      cfg.recurseFilter (dropTrailingSep v ++ sepC :: n) = true →
      G (dropTrailingSep v ++ sepC :: n))
    (hGparent : ∀ v p, G v → parentDirF fs v = .ok p → subB sd p = true → G p) :
    ∀ (fuel : Nat) (dir : List Char) (last : Option (List Char)), G dir →
      LastOK last →
      (findNextFileAt cfg sd fs fuel dir last).1 ≠ .panic ∧
      (∀ e, (findNextFileAt cfg sd fs fuel dir last).1 = .found e →
        YieldsFrom G e)
  | 0, dir, last, _, _ => by
    rw [findNextFileAt]
    exact ⟨by simp, fun e he => ScanRes.noConfusion he⟩
  | fuel + 1, dir, last, hG, hlast => by
    obtain ⟨hNFdir, hcoldir⟩ := hGnf dir hG
    have hnodot : dotN ∉ splitSep dir := noDot_of_colon hNFdir hcoldir
    have hshape : ∀ e ∈ (fs.readDir dir).getD [], ChildOf dir e := by
      cases hrd : fs.readDir dir with
      | none => simp
      | some raws =>
        intro e he
        simp only [Option.getD_some] at he
        obtain ⟨n, hn, hne⟩ := hwf.children dir raws hrd e he
        exact ⟨n, hn, hne⟩
    have hfp : ∀ e ∈ (fs.readDir dir).getD [], fpNew e = some e := by
      intro e he
      obtain ⟨n, hn, rfl⟩ := hshape e he
      exact fpNew_NF_id (NF_child hNFdir hnodot hn)
    have hmap : mapFpNew ((fs.readDir dir).getD []) =
        some ((fs.readDir dir).getD []) := mapFpNew_id _ hfp
    have hsortmem : ∀ e ∈ sortDirsFirst fs ((fs.readDir dir).getD []),
        ChildOf dir e := by
      intro e he
      rw [sortDirsFirst] at he
      rcases List.mem_append.mp he with h' | h' <;>
        exact hshape e (List.mem_of_mem_filter h')
    have hcolent : ∀ e ∈ sortDirsFirst fs ((fs.readDir dir).getD []),
        hasColon e = true := by
      intro e he
      obtain ⟨n, _, rfl⟩ := hsortmem e he
      rw [hasColon, decide_eq_true_eq]
      apply List.mem_append.mpr
      apply Or.inl
      have : ':' ∈ dropTrailingSep dir := by
        have := hasColon_dropTrailingSep dir
        rw [hcoldir] at this
        rw [hasColon, decide_eq_true_eq] at this
        exact this
      exact this
    obtain ⟨start, hstart⟩ := @startIndex_some fs _ _ hcolent hlast
    have hdropmem : ∀ e ∈ (sortDirsFirst fs ((fs.readDir dir).getD [])).drop start,
        ChildOf dir e :=
      fun e he => hsortmem e (List.drop_subset _ _ he)
    have hscan := scanEntries_inv cfg fs
      (fun e => findNextFileAt cfg sd fs fuel e none) (ChildOf dir)
      (YieldsFrom G)
      (by
        intro e hCe hdir hrec
        obtain ⟨n, hn, rfl⟩ := hCe
        have hGe : G (dropTrailingSep dir ++ sepC :: n) :=
          hGchild dir n hG hn hdir hrec
        exact findNext_inv cfg sd fs hwf G hGnf hGchild hGparent fuel _ none
          hGe trivial)
      (fun e hCe => ⟨dir, hG, hCe⟩)
      ((sortDirsFirst fs ((fs.readDir dir).getD [])).drop start) hdropmem
    rw [findNextFileAt_succ_eq hmap hstart]
    rcases hsc : scanEntries cfg fs (fun e => findNextFileAt cfg sd fs fuel e none)
      ((sortDirsFirst fs ((fs.readDir dir).getD [])).drop start) with ⟨r, tr⟩
    rw [hsc] at hscan
    cases r with
    | found f =>
      exact ⟨by simp, fun e he => (ScanRes.found.inj he) ▸ hscan.2 f rfl⟩
    | panic => exact absurd rfl hscan.1
    | fuelOut => exact ⟨by simp, fun e he => ScanRes.noConfusion he⟩
    | notFound =>
      rcases parentDirF_NF fs hNFdir hcoldir with ⟨herr, _⟩ | ⟨p, lastn, hok, _, _, _, hNFp⟩
      · exact inv_cast G _ (ScanRes.notFound, dir :: tr) (by simp [herr])
          (by simp) (fun e he => ScanRes.noConfusion he)
      · by_cases hsub : subB sd p = true
        · have hGp : G p := hGparent dir p hG hok hsub
          have hrest := findNext_inv cfg sd fs hwf G hGnf hGchild hGparent fuel p
            (some dir) hGp ⟨hNFdir, hcoldir⟩
          rcases hres : findNextFileAt cfg sd fs fuel p (some dir) with ⟨r2, tr2⟩
          rw [hres] at hrest
          exact inv_cast G _ (r2, dir :: (tr ++ tr2)) (by simp [hok, hsub, hres])
            hrest.1 (fun e he => hrest.2 e he)
        · exact inv_cast G _ (ScanRes.notFound, dir :: tr) (by simp [hok, hsub])
            (by simp) (fun e he => ScanRes.noConfusion he)

/-! ## Listing failures are invisible: the swallow bisimulation -/

theorem readDir_swallow (fs : FS) (p : List Char) :
    (fs.swallow.readDir p).getD [] = (fs.readDir p).getD [] := rfl

theorem isDirF_swallow (fs : FS) (e : List Char) :
    isDirF fs.swallow e = isDirF fs e := rfl

theorem sortDirsFirst_swallow (fs : FS) (es : List (List Char)) :
    sortDirsFirst fs.swallow es = sortDirsFirst fs es := rfl

theorem absoluteP_swallow (fs : FS) (p : List Char) :
    absoluteP fs.swallow p = absoluteP fs p := rfl

theorem feq_swallow (fs : FS) (a b : List Char) :
    feq fs.swallow a b = feq fs a b := rfl

theorem posEq_swallow (fs : FS) : ∀ (es : List (List Char)) (sk : List Char),
    posEq fs.swallow es sk = posEq fs es sk
  | [], _ => rfl
  | e :: r, sk => by
    rw [posEq, posEq, feq_swallow, posEq_swallow fs r sk]

theorem startIndex_swallow (fs : FS) (es : List (List Char))
    (last : Option (List Char)) :
    startIndex fs.swallow es last = startIndex fs es last := by
  cases last with
  | none => rfl
  | some sk => rw [startIndex, startIndex, posEq_swallow]

theorem parentDirCore_swallow (fs : FS) : ∀ (d : Nat) (p : List Char),
    parentDirCore fs.swallow d p = parentDirCore fs d p
  | 0, _ => rfl
  | d + 1, p => by
    rw [parentDirCore, parentDirCore]
    by_cases h1 : (pathNodes p).getLastD [] = dd
    · rw [if_pos h1, if_pos h1]
    · rw [if_neg h1, if_neg h1]
      by_cases h2 : (pathNodes p).length ≤ 1
      · rw [if_pos h2, if_pos h2]
        by_cases h3 : hasColon p = true
        · rw [if_pos h3, if_pos h3]
        · rw [if_neg h3, if_neg h3, absoluteP_swallow]
          cases absoluteP fs p with
          | none => rfl
          | some a => exact parentDirCore_swallow fs d a
      · rw [if_neg h2, if_neg h2]

theorem parentDirF_swallow (fs : FS) (p : List Char) :
    parentDirF fs.swallow p = parentDirF fs p :=
  parentDirCore_swallow fs 2 p

theorem scanEntries_swallow (cfg : Config) (fs : FS)
    (next : List Char → ScanRes × List (List Char)) :
    ∀ es : List (List Char),
      scanEntries cfg fs.swallow next es = scanEntries cfg fs next es
  | [] => rfl
  | e :: rest => by
    rw [scanEntries, scanEntries, isDirF_swallow]
    by_cases hy : (((isDirF fs e && cfg.includeDirs) ||
        (!(isDirF fs e) && cfg.includeFiles)) && cfg.resultsFilter e) = true
    · rw [if_pos hy, if_pos hy]
    · rw [if_neg hy, if_neg hy]
      by_cases hr : (isDirF fs e && cfg.recurseFilter e) = true
      · rw [if_pos hr, if_pos hr]
        cases hne : next e with
        | mk r tr =>
          cases r with
          | notFound => rw [scanEntries_swallow cfg fs next rest]
          | found f => rfl
          | panic => rfl
          | fuelOut => rfl
      · rw [if_neg hr, if_neg hr]
        exact scanEntries_swallow cfg fs next rest

theorem findNextFileAt_swallow (cfg : Config) (sd : List Char) (fs : FS) :
    ∀ (fuel : Nat) (dir : List Char) (last : Option (List Char)),
      findNextFileAt cfg sd fs.swallow fuel dir last =
        findNextFileAt cfg sd fs fuel dir last
  | 0, _, _ => rfl
  | fuel + 1, dir, last => by
    have hnextfun : (fun e => findNextFileAt cfg sd fs.swallow fuel e none) =
        (fun e => findNextFileAt cfg sd fs fuel e none) :=
      funext fun e => findNextFileAt_swallow cfg sd fs fuel e none
    cases hm : mapFpNew ((fs.readDir dir).getD []) with
    | none =>
      rw [findNextFileAt_map_none
            (show mapFpNew ((fs.swallow.readDir dir).getD []) = none from hm),
          findNextFileAt_map_none hm]
    | some e0 =>
      cases hst : startIndex fs (sortDirsFirst fs e0) last with
      | none =>
        rw [findNextFileAt_start_none
              (show mapFpNew ((fs.swallow.readDir dir).getD []) = some e0 from hm)
              (by rw [startIndex_swallow, sortDirsFirst_swallow]; exact hst),
            findNextFileAt_start_none hm hst]
      | some st =>
        rw [findNextFileAt_succ_eq
              (show mapFpNew ((fs.swallow.readDir dir).getD []) = some e0 from hm)
              (by rw [startIndex_swallow, sortDirsFirst_swallow]; exact hst),
            findNextFileAt_succ_eq hm hst,
            show sortDirsFirst fs.swallow e0 = sortDirsFirst fs e0 from rfl,
            hnextfun, scanEntries_swallow]
        rcases hsc : scanEntries cfg fs
            (fun e => findNextFileAt cfg sd fs fuel e none)
            ((sortDirsFirst fs e0).drop st) with ⟨r, tr⟩
        cases r with
        | found f => rfl
        | panic => rfl
        | fuelOut => rfl
        | notFound =>
          rw [parentDirF_swallow]
          cases hp : parentDirF fs dir with
          | panic => rfl
          | err => rfl
          | ok p =>
            by_cases hsub : subB sd p = true
            · simp [hsub, findNextFileAt_swallow cfg sd fs fuel p (some dir)]
            · simp [hsub]

theorem findNextFileAtCursor_swallow (fs : FS) (fuel : Nat) (s : Scanner) :
    findNextFileAtCursor fs.swallow fuel s = findNextFileAtCursor fs fuel s := by
  rw [findNextFileAtCursor, findNextFileAtCursor, findNextFileAt_swallow]
  rcases findNextFileAt s.cfg s.sourceDir fs fuel s.cursor.dir s.cursor.last
    with ⟨r, tr⟩
  cases r with
  | found e => simp [isDirF_swallow, parentDirF_swallow]
  | notFound => rfl
  | panic => rfl
  | fuelOut => rfl

/-! ## Every call lists its own directory again -/

theorem findNext_trace_head (cfg : Config) (sd : List Char) (fs : FS)
    (fuel : Nat) (dir : List Char) (last : Option (List Char)) :
    ((findNextFileAt cfg sd fs (fuel + 1) dir last).2).head? = some dir := by
  cases hm : mapFpNew ((fs.readDir dir).getD []) with
  | none => rw [findNextFileAt_map_none hm]; rfl
  | some e0 =>
    cases hst : startIndex fs (sortDirsFirst fs e0) last with
    | none => rw [findNextFileAt_start_none hm hst]; rfl
    | some st =>
      rw [findNextFileAt_succ_eq hm hst]
      rcases hsc : scanEntries cfg fs
          (fun e => findNextFileAt cfg sd fs fuel e none)
          ((sortDirsFirst fs e0).drop st) with ⟨r, tr⟩
      cases r with
      | found f => rfl
      | panic => rfl
      | fuelOut => rfl
      | notFound =>
        cases hp : parentDirF fs dir with
        | panic => rfl
        | err => rfl
        | ok p =>
          by_cases hsub : subB sd p = true
          · rcases hres : findNextFileAt cfg sd fs fuel p (some dir) with ⟨r2, tr2⟩
            simp [hsub, hres]
          · simp [hsub]

/-! ## Every yielded entry passes the configuration -/

theorem scanEntries_found (cfg : Config) (fs : FS)
    (next : List Char → ScanRes × List (List Char))
    (hnext : ∀ e x, (next e).1 = .found x → yieldOK cfg fs x) :
    ∀ (es : List (List Char)) (x : List Char),
      (scanEntries cfg fs next es).1 = .found x → yieldOK cfg fs x
  | [], x => by
    rw [scanEntries]
    exact fun hx => ScanRes.noConfusion hx
  | e :: rest, x => by
    rw [scanEntries]
    by_cases hy : (((isDirF fs e && cfg.includeDirs) ||
        (!(isDirF fs e) && cfg.includeFiles)) && cfg.resultsFilter e) = true
    · rw [if_pos hy]
      exact fun hx => (ScanRes.found.inj hx) ▸ hy
    · rw [if_neg hy]
      by_cases hr : (isDirF fs e && cfg.recurseFilter e) = true
      · rw [if_pos hr]
        rcases hres : next e with ⟨r, tr⟩
        cases r with
        | found f => exact fun hx => hnext e x (by rw [hres]; exact hx)
        | notFound => exact scanEntries_found cfg fs next hnext rest x
        | panic => exact fun hx => ScanRes.noConfusion hx
        | fuelOut => exact fun hx => ScanRes.noConfusion hx
      · rw [if_neg hr]
        exact scanEntries_found cfg fs next hnext rest x

theorem found_cast {Q : List Char → Prop} {x : List Char}
    {a b : ScanRes × List (List Char)} (hab : a = b)
    (h : b.1 = ScanRes.found x → Q x) : a.1 = ScanRes.found x → Q x :=
  hab ▸ h

theorem findNext_found (cfg : Config) (sd : List Char) (fs : FS) :
    ∀ (fuel : Nat) (dir : List Char) (last : Option (List Char)) (x : List Char),
      (findNextFileAt cfg sd fs fuel dir last).1 = .found x → yieldOK cfg fs x
  | 0, dir, last, x => by
    rw [findNextFileAt]
    exact fun h => ScanRes.noConfusion h
  | fuel + 1, dir, last, x => by
    cases hm : mapFpNew ((fs.readDir dir).getD []) with
    | none =>
      rw [findNextFileAt_map_none hm]
      exact fun h => ScanRes.noConfusion h
    | some e0 =>
      cases hst : startIndex fs (sortDirsFirst fs e0) last with
      | none =>
        rw [findNextFileAt_start_none hm hst]
        exact fun h => ScanRes.noConfusion h
      | some st =>
        rw [findNextFileAt_succ_eq hm hst]
        have hse := scanEntries_found cfg fs
          (fun e => findNextFileAt cfg sd fs fuel e none)
          (fun e y h => findNext_found cfg sd fs fuel e none y h)
          ((sortDirsFirst fs e0).drop st) x
        rcases hsc : scanEntries cfg fs
            (fun e => findNextFileAt cfg sd fs fuel e none)
            ((sortDirsFirst fs e0).drop st) with ⟨r, tr⟩
        rw [hsc] at hse
        cases r with
        | found f => exact fun h => hse h
        | panic => exact fun h => ScanRes.noConfusion h
        | fuelOut => exact fun h => ScanRes.noConfusion h
        | notFound =>
          cases hp : parentDirF fs dir with
          | panic => exact fun h => ScanRes.noConfusion h
          | err => exact fun h => ScanRes.noConfusion h
          | ok p =>
            by_cases hsub : subB sd p = true
            · rcases hres : findNextFileAt cfg sd fs fuel p (some dir)
                with ⟨r2, tr2⟩
              refine found_cast (b := (r2, dir :: (tr ++ tr2)))
                (by simp [hsub, hres]) ?_
              intro h
              exact findNext_found cfg sd fs fuel p (some dir) x
                (by rw [hres]; exact h)
            · refine found_cast (b := (ScanRes.notFound, dir :: tr))
                (by simp [hsub]) ?_
              exact fun h => ScanRes.noConfusion h

theorem cursor_found (fs : FS) (fuel : Nat) (s : Scanner) (x : List Char)
    (h : (findNextFileAtCursor fs fuel s).1 = .found x) :
    (findNextFileAt s.cfg s.sourceDir fs fuel s.cursor.dir s.cursor.last).1 =
      .found x := by
  rw [findNextFileAtCursor] at h
  rcases hres : findNextFileAt s.cfg s.sourceDir fs fuel s.cursor.dir
    s.cursor.last with ⟨r, tr⟩
  rw [hres] at h
  cases r with
  | found e =>
    by_cases hd : (isDirF fs e && s.cfg.recurseFilter e) = true
    · rw [show (ScanRes.found e, tr) = ((ScanRes.found e, tr) :
          ScanRes × List (List Char)) from rfl]
      simp only [hd, if_true] at h
      exact congrArg Prod.fst (congrArg id rfl) ▸ h ▸ rfl
    · cases hp : parentDirF fs e with
      | ok p =>
        simp only [hd, if_false, hp] at h
        exact h ▸ rfl
      | err =>
        simp only [hd, if_false, hp] at h
        exact absurd h (by simp)
      | panic =>
        simp only [hd, if_false, hp] at h
        exact absurd h (by simp)
  | notFound => exact absurd h (by simp)
  | panic => exact absurd h (by simp)
  | fuelOut => exact absurd h (by simp)

/-! ## Two structural facts about paths -/

theorem dropTrailingSep_length_le (p : List Char) :
    (dropTrailingSep p).length ≤ p.length := by
  rw [dropTrailingSep, List.length_reverse]
  calc (p.reverse.dropWhile (· = sepC)).length
      ≤ p.reverse.length := (List.dropWhile_suffix _).sublist.length_le
    _ = p.length := List.length_reverse p

theorem append_sep_inj : ∀ (a b x y : List Char),
    a ++ sepC :: x = b ++ sepC :: y → sepC ∉ x → sepC ∉ y → a = b ∧ x = y
  | [], [], x, y, h, _, _ => by
    rw [List.nil_append, List.nil_append] at h
    simp only [List.cons.injEq] at h
    exact ⟨rfl, h.2⟩
  | [], c :: b2, x, y, h, hx, _ => by
    rw [List.nil_append, List.cons_append] at h
    simp only [List.cons.injEq] at h
    exact absurd (h.2 ▸ List.mem_append_right b2 (List.mem_cons_self _ _)) hx
  | c :: a2, [], x, y, h, _, hy => by
    rw [List.nil_append, List.cons_append] at h
    simp only [List.cons.injEq] at h
    exact absurd (h.2 ▸ List.mem_append_right a2 (List.mem_cons_self _ _)) hy
  | c :: a2, c2 :: b2, x, y, h, hx, hy => by
    rw [List.cons_append, List.cons_append] at h
    simp only [List.cons.injEq] at h
    obtain ⟨ha, hxy⟩ := append_sep_inj a2 b2 x y h.2 hx hy
    exact ⟨by rw [h.1, ha], hxy⟩


/-! ## Reachable directories: properties and closure under the scanner's
moves -/

theorem DescReach_props {cfg : Config} {fs : FS} {sd : List Char}
    (hnf : NF sd) (hcol : hasColon sd = true)
    (hlast : sd.getLast? ≠ some sepC) :
    ∀ {v : List Char}, DescReach cfg fs sd v →
      NF v ∧ hasColon v = true ∧ v.getLast? ≠ some sepC ∧
      sd.length < (dropTrailingSep v).length + 2 := by
  intro v h
  induction h with
  | root =>
    refine ⟨hnf, hcol, hlast, ?_⟩
    rw [dropTrailingSep_id hlast]
    omega
  | child v n hv hn hdir hrec ih =>
    obtain ⟨hNFv, hcolv, hlastv, hlenv⟩ := ih
    have hNFe : NF (dropTrailingSep v ++ sepC :: n) :=
      NF_child hNFv (noDot_of_colon hNFv hcolv) hn
    have hcole : hasColon (dropTrailingSep v ++ sepC :: n) = true := by
      rw [hasColon, decide_eq_true_eq]
      apply List.mem_append.mpr
      left
      have h2 := hasColon_dropTrailingSep v
      rw [hcolv, hasColon, decide_eq_true_eq] at h2
      exact h2
    have hlaste : (dropTrailingSep v ++ sepC :: n).getLast? ≠ some sepC := by
      rw [List.getLast?_append_of_ne_nil _ (List.cons_ne_nil sepC n)]
      intro hc
      have hmem : sepC ∈ sepC :: n := mem_of_getLast?_eq hc
      rcases List.mem_cons.mp hmem with h1 | h1
      · cases n with
        | nil => exact hn.1 rfl
        | cons a r =>
          rw [List.getLast?_cons_cons] at hc
          exact hn.2.1 (mem_of_getLast?_eq hc)
      · exact hn.2.1 h1
    refine ⟨hNFe, hcole, hlaste, ?_⟩
    rw [dropTrailingSep_id hlaste, List.length_append, List.length_cons]
    have h3 : 0 < n.length := List.length_pos.mpr hn.1
    omega

theorem DescReach_parent {cfg : Config} {fs : FS} {sd : List Char}
    (hnf : NF sd) (hcol : hasColon sd = true)
    (hlast : sd.getLast? ≠ some sepC) :
    ∀ {v p : List Char}, DescReach cfg fs sd v → parentDirF fs v = .ok p →
      subB sd p = true → DescReach cfg fs sd p := by
  intro v p h
  cases h with
  | root =>
    intro hok hsub
    rcases parentDirF_NF fs hnf hcol with ⟨herr, _⟩ | ⟨q, lastn, hq, hdec, _, hne2, _⟩
    · rw [herr] at hok
      exact PRes.noConfusion hok
    · rw [hq] at hok
      obtain rfl : p = q := (PRes.ok.inj hok).symm
      have h1 : (dropTrailingSep sd).length ≤ sd.length := dropTrailingSep_length_le sd
      rw [hdec, List.length_append, List.length_cons] at h1
      have h2 : 0 < lastn.length := List.length_pos.mpr hne2
      have h3 : subB sd p = false := subB_false_of_lt (by omega)
      rw [h3] at hsub
      exact Bool.noConfusion hsub
  | child w n hw hn hdir hrec =>
    intro hok hsub
    obtain ⟨hNFw, hcolw, hlastw, _⟩ := DescReach_props hnf hcol hlast hw
    have hNFe : NF (dropTrailingSep w ++ sepC :: n) :=
      NF_child hNFw (noDot_of_colon hNFw hcolw) hn
    have hcole : hasColon (dropTrailingSep w ++ sepC :: n) = true := by
      rw [hasColon, decide_eq_true_eq]
      apply List.mem_append.mpr
      left
      have h2 := hasColon_dropTrailingSep w
      rw [hcolw, hasColon, decide_eq_true_eq] at h2
      exact h2
    have hlaste : (dropTrailingSep w ++ sepC :: n).getLast? ≠ some sepC := by
      rw [List.getLast?_append_of_ne_nil _ (List.cons_ne_nil sepC n)]
      intro hc
      have hmem : sepC ∈ sepC :: n := mem_of_getLast?_eq hc
      rcases List.mem_cons.mp hmem with h1 | h1
      · cases n with
        | nil => exact hn.1 rfl
        | cons a r =>
          rw [List.getLast?_cons_cons] at hc
          exact hn.2.1 (mem_of_getLast?_eq hc)
      · exact hn.2.1 h1
    rcases parentDirF_NF fs hNFe hcole with ⟨herr, _⟩ | ⟨q, lastn, hq, hdec, hsep, _, _⟩
    · rw [herr] at hok
      exact PRes.noConfusion hok
    · rw [hq] at hok
      obtain rfl : p = q := (PRes.ok.inj hok).symm
      rw [dropTrailingSep_id hlaste] at hdec
      obtain ⟨hqeq, -⟩ := append_sep_inj p (dropTrailingSep w) lastn n hdec.symm hsep hn.2.1
      rw [hqeq, dropTrailingSep_id hlastw]
      exact hw


/-! ## The scanner-state invariant across next() calls -/

theorem hasColon_child {v : List Char} (hcolv : hasColon v = true)
    (n : List Char) : hasColon (dropTrailingSep v ++ sepC :: n) = true := by
  rw [hasColon, decide_eq_true_eq]
  apply List.mem_append.mpr
  left
  have h2 := hasColon_dropTrailingSep v
  rw [hcolv, hasColon, decide_eq_true_eq] at h2
  exact h2

theorem getLast_child {v n : List Char} (hn : goodName n) :
    (dropTrailingSep v ++ sepC :: n).getLast? ≠ some sepC := by
  rw [List.getLast?_append_of_ne_nil _ (List.cons_ne_nil sepC n)]
  intro hc
  have hmem : sepC ∈ sepC :: n := mem_of_getLast?_eq hc
  rcases List.mem_cons.mp hmem with h1 | h1
  · cases n with
    | nil => exact hn.1 rfl
    | cons a r =>
      rw [List.getLast?_cons_cons] at hc
      exact hn.2.1 (mem_of_getLast?_eq hc)
  · exact hn.2.1 h1

theorem findNext_inv_DescReach (cfg : Config) (fs : FS) (sd : List Char)
    (hwf : fs.WF) (hnf : NF sd) (hcol : hasColon sd = true)
    (hlast : sd.getLast? ≠ some sepC) (fuel : Nat) (dir : List Char)
    (last : Option (List Char)) (hdir : DescReach cfg fs sd dir)
    (hl : LastOK last) :
    (findNextFileAt cfg sd fs fuel dir last).1 ≠ .panic ∧
    ∀ e, (findNextFileAt cfg sd fs fuel dir last).1 = .found e →
      YieldsFrom (DescReach cfg fs sd) e :=
  findNext_inv cfg sd fs hwf (DescReach cfg fs sd)
    (fun v hv => ⟨(DescReach_props hnf hcol hlast hv).1,
      (DescReach_props hnf hcol hlast hv).2.1⟩)
    (fun v n hv hn hd hr => DescReach.child v n hv hn hd hr)
    (fun v p hv hok hsub => DescReach_parent hnf hcol hlast hv hok hsub)
    fuel dir last hdir hl

theorem step_cast {fs : FS} {sd : List Char}
    {x y : ScanRes × Scanner × List (List Char)} (hxy : x = y)
    (h1 : SInv fs sd y.2.1)
    (h2 : ∀ e, y.1 = ScanRes.found e → sd.length < e.length) :
    SInv fs sd x.2.1 ∧ ∀ e, x.1 = ScanRes.found e → sd.length < e.length :=
  ⟨hxy ▸ h1, hxy ▸ h2⟩

theorem cursorStep_inv (fs : FS) (sd : List Char) (hwf : fs.WF) (hnf : NF sd)
    (hcol : hasColon sd = true) (hlast : sd.getLast? ≠ some sepC)
    (fuel : Nat) (s : Scanner) (hinv : SInv fs sd s) :
    SInv fs sd (findNextFileAtCursor fs fuel s).2.1 ∧
    ∀ e, (findNextFileAtCursor fs fuel s).1 = .found e →
      sd.length < e.length := by
  obtain ⟨hsd, hdir, hl⟩ := hinv
  have hfi := findNext_inv_DescReach s.cfg fs sd hwf hnf hcol hlast fuel
    s.cursor.dir s.cursor.last hdir hl
  rw [findNextFileAtCursor, hsd]
  rcases hres : findNextFileAt s.cfg sd fs fuel s.cursor.dir s.cursor.last
    with ⟨r, tr⟩
  rw [hres] at hfi
  cases r with
  | notFound => exact ⟨⟨hsd, hdir, hl⟩, fun e he => ScanRes.noConfusion he⟩
  | panic => exact ⟨⟨hsd, hdir, hl⟩, fun e he => ScanRes.noConfusion he⟩
  | fuelOut => exact ⟨⟨hsd, hdir, hl⟩, fun e he => ScanRes.noConfusion he⟩
  | found e =>
    obtain ⟨v, hv, nn, hnn, rfl⟩ := hfi.2 e rfl
    obtain ⟨hNFv, hcolv, hlastv, hlenv⟩ := DescReach_props hnf hcol hlast hv
    have hNFe : NF (dropTrailingSep v ++ sepC :: nn) :=
      NF_child hNFv (noDot_of_colon hNFv hcolv) hnn
    have hcole := hasColon_child hcolv nn
    have hlaste := getLast_child (v := v) hnn
    have hlen : sd.length < (dropTrailingSep v ++ sepC :: nn).length := by
      rw [List.length_append, List.length_cons]
      have h4 := List.length_pos.mpr hnn.1
      omega
    by_cases hd : (isDirF fs (dropTrailingSep v ++ sepC :: nn) &&
        s.cfg.recurseFilter (dropTrailingSep v ++ sepC :: nn)) = true
    · refine step_cast
        (y := (.found (dropTrailingSep v ++ sepC :: nn),
          (⟨s.cfg, sd, ⟨dropTrailingSep v ++ sepC :: nn, none⟩⟩ : Scanner), tr))
        (by simp [hd]) ?_ ?_
      · rw [Bool.and_eq_true] at hd
        exact ⟨rfl, DescReach.child v nn hv hnn hd.1 hd.2, trivial⟩
      · exact fun e' he' => (ScanRes.found.inj he') ▸ hlen
    · cases hp : parentDirF fs (dropTrailingSep v ++ sepC :: nn) with
      | ok p =>
        rcases parentDirF_NF fs hNFe hcole with ⟨herr, _⟩ |
          ⟨q, lastn, hq, hdec, hsep, _, _⟩
        · rw [herr] at hp
          exact PRes.noConfusion hp
        · rw [hq] at hp
          obtain rfl : p = q := (PRes.ok.inj hp).symm
          rw [dropTrailingSep_id hlaste] at hdec
          obtain ⟨hqeq, -⟩ := append_sep_inj p (dropTrailingSep v) lastn nn
            hdec.symm hsep hnn.2.1
          refine step_cast
            (y := (.found (dropTrailingSep v ++ sepC :: nn),
              (⟨s.cfg, sd, ⟨p, some (dropTrailingSep v ++ sepC :: nn)⟩⟩ :
                Scanner), tr))
            (by simp [hd, hq]) ?_ ?_
          · refine ⟨rfl, ?_, hNFe, hcole⟩
            rw [show (⟨s.cfg, sd, ⟨p, some (dropTrailingSep v ++ sepC :: nn)⟩⟩ :
              Scanner).cursor.dir = p from rfl]
            rw [hqeq, dropTrailingSep_id hlastv]
            exact hv
          · exact fun e' he' => (ScanRes.found.inj he') ▸ hlen
      | err =>
        exact step_cast (y := (.notFound, s, tr)) (by simp [hd, hp])
          ⟨hsd, hdir, hl⟩ (fun e' he' => ScanRes.noConfusion he')
      | panic =>
        exact step_cast (y := (.panic, s, tr)) (by simp [hd, hp])
          ⟨hsd, hdir, hl⟩ (fun e' he' => ScanRes.noConfusion he')

/-! ## The include_self iterator -/

theorem nextSelf_emitted {fs : FS} {fuel : Nat} {s : ScannerSelf}
    (hse : s.selfEmitted = true) :
    nextSelf fs fuel s = ((findNextFileAtCursor fs fuel s.base).1,
      { s with base := (findNextFileAtCursor fs fuel s.base).2.1 },
      (findNextFileAtCursor fs fuel s.base).2.2) := by
  rw [nextSelf, hse]
  rw [if_neg (by simp)]

theorem runSelf_no_root (fs : FS) (sd : List Char) (hwf : fs.WF) (hnf : NF sd)
    (hcol : hasColon sd = true) (hlast : sd.getLast? ≠ some sepC) :
    ∀ (n fuel : Nat) (s : ScannerSelf), s.selfEmitted = true →
      SInv fs sd s.base → ScanRes.found sd ∉ runSelf fs fuel n s
  | 0, fuel, s, _, _ => by
    rw [runSelf]
    exact List.not_mem_nil _
  | n + 1, fuel, s, hse, hinv => by
    rw [runSelf, nextSelf_emitted hse]
    intro hmem
    have hstep := cursorStep_inv fs sd hwf hnf hcol hlast fuel s.base hinv
    rcases List.mem_cons.mp hmem with h1 | h2
    · have h3 := hstep.2 sd h1.symm
      omega
    · exact runSelf_no_root fs sd hwf hnf hcol hlast n fuel
        { s with base := (findNextFileAtCursor fs fuel s.base).2.1 }
        hse hstep.1 h2

/-! ## Without include toggles nothing is ever yielded -/

theorem no_toggle_no_found (fs : FS) (fuel : Nat) (s : Scanner) (e : List Char)
    (hf : s.cfg.includeFiles = false) (hd : s.cfg.includeDirs = false) :
    (findNextFileAtCursor fs fuel s).1 ≠ .found e := by
  intro hfound
  have h3 := findNext_found s.cfg s.sourceDir fs fuel s.cursor.dir s.cursor.last
    e (cursor_found fs fuel s e hfound)
  rw [yieldOK, hf, hd] at h3
  simp at h3

/-! ## A file root yields nothing from the walk -/

theorem findNext_file_root (cfg : Config) (sd : List Char) (fs : FS)
    (fuel : Nat) (hnf : NF sd) (hcol : hasColon sd = true)
    (hrd : fs.readDir sd = none) :
    findNextFileAt cfg sd fs (fuel + 1) sd none = (.notFound, [sd]) := by
  have hmap : mapFpNew ((fs.readDir sd).getD []) = some [] := by
    rw [hrd]
    rfl
  have hstart : startIndex fs (sortDirsFirst fs ([] : List (List Char)))
      none = some 0 := rfl
  rw [findNextFileAt_succ_eq hmap hstart]
  have hscan : scanEntries cfg fs (fun e => findNextFileAt cfg sd fs fuel e none)
      ((sortDirsFirst fs ([] : List (List Char))).drop 0) = (.notFound, []) := rfl
  rw [hscan]
  rcases parentDirF_NF fs hnf hcol with ⟨herr, _⟩ |
    ⟨p, lastn, hok, hdec, hsep, hne2, _⟩
  · simp [herr]
  · have h1 : (dropTrailingSep sd).length ≤ sd.length := dropTrailingSep_length_le sd
    rw [hdec, List.length_append, List.length_cons] at h1
    have h2 : 0 < lastn.length := List.length_pos.mpr hne2
    have hsubf : subB sd p = false := subB_false_of_lt (by omega)
    simp [hok, hsubf]


/-! ## Well-formedness of the concrete filesystems -/

theorem fs1_wf : fs1.WF := by
  refine ⟨?_⟩
  intro p es h e he
  simp only [fs1] at h
  split at h
  next h1 =>
    subst h1
    obtain rfl := Option.some.inj h
    simp only [List.mem_cons, List.not_mem_nil, or_false] at he
    rcases he with rfl | rfl
    · exact ⟨['f', '1', '.', 't', 'x', 't'],
        ⟨by decide, by decide, by decide, by decide, by decide⟩, by decide⟩
    · exact ⟨['f', '2', '.', 't', 'x', 't'],
        ⟨by decide, by decide, by decide, by decide, by decide⟩, by decide⟩
  next h1 => exact Option.noConfusion h

theorem fs5a_wf : fs5a.WF := by
  refine ⟨?_⟩
  intro p es h e he
  simp only [fs5a] at h
  split at h
  next h1 =>
    subst h1
    obtain rfl := Option.some.inj h
    simp only [List.mem_cons, List.not_mem_nil, or_false] at he
    obtain rfl := he
    exact ⟨['s', 'u', 'b'],
      ⟨by decide, by decide, by decide, by decide, by decide⟩, by decide⟩
  next h1 =>
    split at h
    next h2 =>
      subst h2
      obtain rfl := Option.some.inj h
      simp only [List.mem_cons, List.not_mem_nil, or_false] at he
      obtain rfl := he
      exact ⟨['x', '.', 't', 'x', 't'],
        ⟨by decide, by decide, by decide, by decide, by decide⟩, by decide⟩
    next h2 => exact Option.noConfusion h

/-! ## The ten claims -/

/-- Claim C1 (corrected): the scanner keeps no per-directory listing
cache.  Every call of find_next_file_at starts by handing the cursor's
directory to read_dir again: the trace of directories passed to read_dir
in one next() call always begins with the cursor's directory, however
often that directory was listed before. -/
theorem c1_every_call_relists (fs : FS) (fuel : Nat) (s : Scanner) :
    ((findNextFileAtCursor fs (fuel + 1) s).2.2).head? = some s.cursor.dir := by
  rw [findNextFileAtCursor]
  have ht := findNext_trace_head s.cfg s.sourceDir fs fuel s.cursor.dir
    s.cursor.last
  rcases hres : findNextFileAt s.cfg s.sourceDir fs (fuel + 1) s.cursor.dir
    s.cursor.last with ⟨r, tr⟩
  rw [hres] at ht
  cases r with
  | found e =>
    by_cases hd : (isDirF fs e && s.cfg.recurseFilter e) = true
    · simpa [hd] using ht
    · cases hp : parentDirF fs e with
      | ok p => simpa [hd, hp] using ht
      | err => simpa [hd, hp] using ht
      | panic => simpa [hd, hp] using ht
  | notFound => simpa using ht
  | panic => simpa using ht
  | fuelOut => simpa using ht

/-- Claim C1, counterexample to the spec's cache: one scanner instance over
fs1 passes the root directory to read_dir on its first pull and passes the
very same directory to read_dir again on its second pull. -/
theorem c1_cex_root_listed_twice :
    (findNextFileAtCursor fs1 10 sc1).1 = .found pF1 ∧
    (findNextFileAtCursor fs1 10 sc1).2.2 = [pRoot] ∧
    (findNextFileAtCursor fs1 10 (findNextFileAtCursor fs1 10 sc1).2.1).1 =
      .found pF2 ∧
    (findNextFileAtCursor fs1 10 (findNextFileAtCursor fs1 10 sc1).2.1).2.2 =
      [pRoot] := by decide

/-- Claim C2 (code bug): normalization is not total.  On the input a/../..
the '..'-collapsing loop first removes a/.., restarts at index 0 with
nodes = [".."], and then evaluates nodes[index - 1] with index = 0 — a
usize underflow, i.e. a panic, which the model renders as none. -/
theorem c2_dotdot_collapse_panics :
    fpNew ['a', '/', '.', '.', '/', '.', '.'] = none := by decide

/-- Claim C3 (corrected): FileScanner::new never calls absolute().  The
stored source_dir is just the input with trailing separators trimmed and
re-normalized by FileRef::new, so every already-normalized input without a
trailing separator — in particular any relative one — is stored
verbatim. -/
theorem c3_sourcedir_trimmed_only (source : List Char) (hnf : NF source)
    (hlast : source.getLast? ≠ some sepC) :
    (scannerNew source).map Scanner.sourceDir = some source := by
  rw [scannerNew, dropTrailingSep_id hlast, fpNew_NF_id hnf]
  rfl

/-- Claim C3, witness at the concrete root C:/r. -/
theorem c3_witness_normalized_root :
    (scannerNew pRoot).map Scanner.sourceDir = some pRoot :=
  c3_sourcedir_trimmed_only pRoot (fpNew_some_NF (s := pRoot) (by decide))
    (by decide)

/-- Claim C3, counterexample to the spec: for the relative input a the
stored source_dir stays a, although a.absolute() under the working
directory C:/w is C:/w/a, which is already trimmed and differs from a. -/
theorem c3_cex_relative_root_not_absolute :
    (scannerNew pA).map Scanner.sourceDir = some pA ∧
    absoluteP fs1 pA = some pWA ∧ dropTrailingSep pWA = pWA ∧
    pA ≠ pWA := by decide

/-- Claim C4 (confirmed): whatever next() yields satisfies the
configuration — a directory is yielded only with include_dirs set, a file
only with include_files set, and either passes results_filter.  This holds
for every scanner state and every filesystem. -/
theorem c4_yield_passes_config (fs : FS) (fuel : Nat) (s : Scanner)
    (e : List Char) (h : (findNextFileAtCursor fs fuel s).1 = .found e) :
    (isDirF fs e = true → s.cfg.includeDirs = true) ∧
    (isDirF fs e = false → s.cfg.includeFiles = true) ∧
    s.cfg.resultsFilter e = true := by
  have h3 := findNext_found s.cfg s.sourceDir fs fuel s.cursor.dir
    s.cursor.last e (cursor_found fs fuel s e h)
  rw [yieldOK, Bool.and_eq_true, Bool.or_eq_true, Bool.and_eq_true,
    Bool.and_eq_true] at h3
  obtain ⟨hor, hfil⟩ := h3
  refine ⟨?_, ?_, hfil⟩
  · intro hdd
    rcases hor with ⟨-, h2⟩ | ⟨hnot, -⟩
    · exact h2
    · rw [hdd] at hnot
      simp at hnot
  · intro hdd
    rcases hor with ⟨hisd, -⟩ | ⟨-, h2⟩
    · rw [hdd] at hisd
      exact Bool.noConfusion hisd
    · exact h2

/-- Claim C4, witness: the first yield of the fs1 scan. -/
theorem c4_witness_concrete_yield :
    (isDirF fs1 pF1 = true → sc1.cfg.includeDirs = true) ∧
    (isDirF fs1 pF1 = false → sc1.cfg.includeFiles = true) ∧
    sc1.cfg.resultsFilter pF1 = true :=
  c4_yield_passes_config fs1 10 sc1 pF1 (by decide)

/-- Claim C5 (corrected): for a normalized absolute trimmed root, every
yielded entry is a direct child of a reachable directory — the root
itself or a directory descended into through recurse_filter-accepted
children, independently of results_filter.  (With a relative root the
substring ascend check can leave the root's subtree, see the
counterexample.) -/
theorem c5_descendants_of_recursed_dirs_only (fs : FS) (sd : List Char)
    (s : Scanner) (fuel : Nat) (e : List Char) (hwf : fs.WF) (hnf : NF sd)
    (hcol : hasColon sd = true) (hlast : sd.getLast? ≠ some sepC)
    (hsrc : s.sourceDir = sd) (hdir : DescReach s.cfg fs sd s.cursor.dir)
    (hl : LastOK s.cursor.last)
    (h : (findNextFileAtCursor fs fuel s).1 = .found e) :
    ∃ v, DescReach s.cfg fs sd v ∧ ChildOf v e := by
  have h2 := cursor_found fs fuel s e h
  rw [hsrc] at h2
  exact (findNext_inv_DescReach s.cfg fs sd hwf hnf hcol hlast fuel
    s.cursor.dir s.cursor.last hdir hl).2 e h2

/-- Claim C5, witness: C:/r/sub fails the results filter of cfg5a yet the
scan of fs5a yields its child C:/r/sub/x.txt, which the theorem explains
as the child of a reachable (recursed-into) directory. -/
theorem c5_witness_unyielded_dir_recursed :
    cfg5a.resultsFilter pSub = false ∧
    ∃ v, DescReach sc5a.cfg fs5a pRoot v ∧ ChildOf v pX5 :=
  ⟨by decide, c5_descendants_of_recursed_dirs_only fs5a pRoot sc5a 10 pX5
    fs5a_wf (fpNew_some_NF (s := pRoot) (by decide)) (by decide) (by decide)
    rfl DescReach.root trivial (by decide)⟩

/-- Claim C5, counterexample to "no descendant of a recurse_filter-rejected
directory is ever yielded": the recurse filter of cfg5 rejects the
directory C:/dr, yet the scan with the relative root r under the working
directory C:/dr/w yields C:/dr/w/g.txt, a strict descendant of C:/dr. -/
theorem c5_cex_descendant_of_rejected_dir :
    cfg5.recurseFilter pDr = false ∧ isDirF fs5 pDr = true ∧
    (findNextFileAtCursor fs5 10 sc5).1 = .found pG5 ∧
    preB (pDr ++ [sepC]) pG5 = true := by decide

/-- Claim C6 (corrected): for a normalized absolute root on which read_dir
fails (a file cannot be listed), the first next() returns the not-found
outcome and the walk stops — but the scanner does pass the file itself to
read_dir once (the trace is [root]), so "never attempts to list the file"
does not hold literally, and with a relative file root the walk can even
yield entries (see the counterexample). -/
theorem c6_absolute_file_root_yields_none (fs : FS) (s : Scanner)
    (fuel : Nat) (hnf : NF s.sourceDir) (hcol : hasColon s.sourceDir = true)
    (hdir : s.cursor.dir = s.sourceDir) (hl : s.cursor.last = none)
    (hrd : fs.readDir s.sourceDir = none) :
    findNextFileAtCursor fs (fuel + 1) s = (.notFound, s, [s.sourceDir]) := by
  rw [findNextFileAtCursor, hdir, hl,
    findNext_file_root s.cfg s.sourceDir fs fuel hnf hcol hrd]

/-- Claim C6, witness: the absolute file root C:/x/f.txt over fs6b. -/
theorem c6_witness_absolute_file_root :
    findNextFileAtCursor fs6b (9 + 1) sc6b = (.notFound, sc6b, [pXF]) :=
  c6_absolute_file_root_yields_none fs6b sc6b 9
    (fpNew_some_NF (s := pXF) (by decide)) (by decide) rfl rfl (by decide)

/-- Claim C6, counterexample to "a file root yields zero entries": the
root f.txt of sc6 is a file, yet the first next() over fs6 yields
C:/f.txtd/g.txt, because the ascend step's substring check escapes through
the working directory C:/f.txtd. -/
theorem c6_cex_relative_file_root_yields :
    isDirF fs6 sc6.sourceDir = false ∧
    (findNextFileAtCursor fs6 10 sc6).1 = .found pG6 := by decide

/-- Claim C7 (confirmed): a failed read_dir is indistinguishable from a
successful empty listing — the entire next() call (outcome, new scanner
state and every further directory listed) is identical on fs and on the
filesystem that replaces each failed listing by an empty one.  A listing
failure therefore surfaces no error and never aborts the scan of the rest
of the tree. -/
theorem c7_listing_failures_swallowed (fs : FS) (fuel : Nat) (s : Scanner) :
    findNextFileAtCursor fs fuel s = findNextFileAtCursor fs.swallow fuel s :=
  (findNextFileAtCursor_swallow fs fuel s).symm

/-- Claim C8 (confirmed against the spec's model; include_self is absent
from src/src/file_scanner.rs): with include_self set on an existing root
that passes the results filter, the first pull yields the root without any
directory listing (empty trace), and however many further items are
pulled, the root is never yielded again. -/
theorem c8_include_self_once (fs : FS) (sd : List Char) (fuel n : Nat)
    (s : ScannerSelf) (hwf : fs.WF) (hnf : NF sd)
    (hcol : hasColon sd = true) (hlast : sd.getLast? ≠ some sepC)
    (hself : s.includeSelf = true) (hem : s.selfEmitted = false)
    (hsrc : s.base.sourceDir = sd) (hcur : s.base.cursor.dir = sd)
    (hcl : s.base.cursor.last = none) (hex : existsF fs sd = true)
    (hrf : s.base.cfg.resultsFilter sd = true) :
    (nextSelf fs fuel s).2.2 = [] ∧
    ∃ rest, runSelf fs fuel (n + 1) s = .found sd :: rest ∧
      ScanRes.found sd ∉ rest := by
  have hcond : (s.includeSelf && !s.selfEmitted && existsF fs s.base.sourceDir
      && s.base.cfg.resultsFilter s.base.sourceDir) = true := by
    rw [hself, hem, hsrc, hex, hrf]
    rfl
  have hstep : nextSelf fs fuel s =
      (.found sd, { s with selfEmitted := true }, []) := by
    rw [nextSelf, if_pos hcond, hsrc]
  refine ⟨by rw [hstep], runSelf fs fuel n { s with selfEmitted := true },
    ?_, ?_⟩
  · rw [runSelf, hstep]
  · refine runSelf_no_root fs sd hwf hnf hcol hlast n fuel _ rfl
      ⟨hsrc, ?_, ?_⟩
    · show DescReach s.base.cfg fs sd s.base.cursor.dir
      rw [hcur]
      exact DescReach.root
    · show LastOK s.base.cursor.last
      rw [hcl]
      trivial

/-- Claim C8, witness: three pulls of the include_self scan of fs1. -/
theorem c8_witness_concrete :
    (nextSelf fs1 10 sc8).2.2 = [] ∧
    ∃ rest, runSelf fs1 10 (2 + 1) sc8 = .found pRoot :: rest ∧
      ScanRes.found pRoot ∉ rest :=
  c8_include_self_once fs1 pRoot 10 2 sc8 fs1_wf
    (fpNew_some_NF (s := pRoot) (by decide)) (by decide) (by decide)
    rfl rfl rfl rfl rfl (by decide) rfl

/-- Claim C9 (confirmed): normalization is idempotent — whenever
FilePath::new(s) succeeds with path t, FilePath::new(t) returns t
unchanged. -/
theorem c9_normalization_idempotent (s t : List Char)
    (h : fpNew s = some t) : fpNew t = some t :=
  fpNew_idem h

/-- Claim C9, witness: a/./b normalizes to a/b, which is a fixed point. -/
theorem c9_witness_concrete :
    fpNew ['a', '/', 'b'] = some ['a', '/', 'b'] :=
  c9_normalization_idempotent ['a', '/', '.', '/', 'b'] ['a', '/', 'b']
    (by decide)

/-- Claim C10 (confirmed): a scanner built by FileScanner::new on which
neither include_files nor include_dirs was called never yields an entry,
whatever results filter and recurse filter are installed afterwards and
whatever the filesystem looks like: both classification toggles stay
false, and the single yield site requires one of them. -/
theorem c10_no_toggles_no_yield (source : List Char) (s0 : Scanner)
    (h : scannerNew source = some s0) (f rf : List Char → Bool) (fs : FS)
    (fuel : Nat) (e : List Char) :
    (findNextFileAtCursor fs fuel
      (withFilterS f (withRecurseFilterS rf s0))).1 ≠ .found e := by
  rw [scannerNew] at h
  obtain ⟨sd, hsd, hs0⟩ := Option.map_eq_some'.mp h
  exact no_toggle_no_found fs fuel _ e (by rw [← hs0]; rfl)
    (by rw [← hs0]; rfl)

/-- Claim C10, witness: the fresh scanner for C:/r with a recurse filter
that accepts everything still yields nothing over fs1. -/
theorem c10_witness_fresh_scanner :
    (findNextFileAtCursor fs1 5 (withFilterS (fun _ => true)
      (withRecurseFilterS (fun _ => true) s10))).1 ≠ .found pF1 :=
  c10_no_toggles_no_yield pRoot s10 rfl (fun _ => true) (fun _ => true)
    fs1 5 pF1


end FileRefLib
